import Mathlib

set_option maxHeartbeats 1000000

/- Shallow embedding of blockchain/block.py (class Block) together with the
   contracts it consumes (the Transaction type, the chain index and the
   hashing utility, whose sources are outside src/).  The double hash
   sha256_2_string is treated as an arbitrary function H : String → String and
   is passed explicitly everywhere the source calls it.  Python control flow
   that can raise or loop forever is reflected in the PyResult type below:
   a Python exception becomes PyResult.exn with the exception class name, and
   a loop that exhausts its fuel becomes PyResult.diverge. -/

/-- Outcome of running a piece of Python code: a value, a raised exception
    (named by its class), or non-termination (fuel exhaustion). -/
inductive PyResult (α : Type) where
  | ok (a : α)
  | exn (e : String)
  | diverge
deriving DecidableEq

/-- Modelled from the spec: one transaction output of the external Transaction
    contract, carrying a sender, a receiver and an amount. -/
structure Output where
  sender : String
  receiver : String
  amount : Int
deriving DecidableEq

/-- Modelled from the spec: the external Transaction contract consumed by
    block.py: a hash, input references of the form "txhash:index", outputs,
    an opaque validity verdict (tx.is_valid()) and a canonical string
    encoding (Python str(tx)). -/
structure Transaction where
  hash : String
  input_refs : List String
  outputs : List Output
  is_valid : Bool
  toStr : String
deriving DecidableEq

/-- Modelled from the spec: the Transaction contract's total output value
    (get_total_output), the sum of the transaction's output amounts. -/
def Transaction.get_total_output (tx : Transaction) : Int :=
  tx.outputs.foldl (fun s o => s + o.amount) 0

/-- Modelled from the spec: Python list indexing on an output list (negative
    indices count from the end; out of range raises IndexError). -/
def pyListGet (l : List Output) (i : Int) : PyResult Output :=
  let j : Int := if i < 0 then i + l.length else i
  if 0 ≤ j ∧ j < l.length then .ok (l.getD j.toNat ⟨"", "", 0⟩) else .exn "IndexError"

/-- Modelled from the spec: the Transaction contract's output value at an
    index (get_output_at). -/
def Transaction.get_output_at (tx : Transaction) (i : Int) : PyResult Int :=
  match pyListGet tx.outputs i with
  | .ok o => .ok o.amount
  | .exn e => .exn e
  | .diverge => .diverge

/-- Modelled from the spec: the Transaction contract's receiver at an index
    (get_receiver_at). -/
def Transaction.get_receiver_at (tx : Transaction) (i : Int) : PyResult String :=
  match pyListGet tx.outputs i with
  | .ok o => .ok o.receiver
  | .exn e => .exn e
  | .diverge => .diverge

/-- The Block data of block.py.  The abstract subclass method seal_is_valid()
    is an external seal mechanism; its verdict on this block is the field
    seal_valid.  target is likewise fixed by the external mechanism. -/
structure Block where
  parent_hash : String
  height : Int
  transactions : List Transaction
  timestamp : Int
  target : Int
  is_genesis : Bool
  merkle : String
  seal_data : Int
  hash : String
  seal_valid : Bool
deriving DecidableEq

/-- Fuelled form of Block.list_to_merkle_hash; the fuel only serves to make
    the recursion structural, and list_to_merkle_hash below instantiates it
    with the list length, which always suffices. -/
def merkleAux (H : String → String) : Nat → List Transaction → String
  | _, [] => H ""
  | _, [t] => H t.toStr
  | 0, _ => ""
  | n+1, l => H (merkleAux H n (l.take (l.length / 2)) ++ merkleAux H n (l.drop (l.length / 2)))

/-- Block.list_to_merkle_hash: empty list ↦ H "", singleton ↦ H (str tx),
    longer list ↦ H (root of first half ++ root of second half), the first
    half holding ⌊n/2⌋ elements. -/
def list_to_merkle_hash (H : String → String) (l : List Transaction) : String :=
  merkleAux H l.length l

/-- Block.calculate_merkle_root. -/
def Block.calculate_merkle_root (H : String → String) (b : Block) : String :=
  list_to_merkle_hash H b.transactions

/-- The reference recursive Merkle definition, written from the specification:
    the empty list yields the double hash of the empty string; a one element
    list yields the double hash of that transaction's string encoding; a list
    of n ≥ 2 elements yields the double hash of the concatenation of the root
    of the first ⌊n/2⌋ elements with the root of the remaining elements. -/
def merkleRootSpec (H : String → String) (l : List Transaction) : String :=
  if l.length = 0 then H ""
  else if l.length = 1 then H ((l.headD ⟨"", [], [], true, ""⟩).toStr)
  else H (merkleRootSpec H (l.take (l.length / 2)) ++ merkleRootSpec H (l.drop (l.length / 2)))
termination_by l.length
decreasing_by
  · simp [List.length_take]; omega
  · simp [List.length_drop]; omega

/-- Modelled from the spec: util.encode_as_str joins the string forms of the
    fields with the separator. -/
def encode_as_str (fields : List String) (sep : String) : String :=
  match fields with
  | [] => ""
  | f :: rest => rest.foldl (fun acc x => acc ++ (sep ++ x)) f

/-- Python str() of a boolean. -/
def pyStrBool (b : Bool) : String := if b then "True" else "False"

/-- Block.unsealed_header. -/
def Block.unsealed_header (b : Block) : String :=
  encode_as_str [toString b.height, toString b.timestamp, toString b.target,
    b.parent_hash, pyStrBool b.is_genesis, b.merkle] "`"

/-- Block.header. -/
def Block.header (b : Block) : String :=
  encode_as_str [b.unsealed_header, toString b.seal_data] "`"

/-- Block.calculate_hash. -/
def Block.calculate_hash (H : String → String) (b : Block) : String := H b.header

/-- Block.set_seal_data: assigns seal_data, then recomputes and stores hash. -/
def Block.set_seal_data (H : String → String) (b : Block) (d : Int) : Block :=
  let b1 : Block := { b with seal_data := d }
  { b1 with hash := b1.calculate_hash H }

/-- Block.is_tx_present. -/
def Block.is_tx_present (b : Block) (tx : Transaction) : Bool :=
  b.transactions.any (fun t => tx.hash == t.hash)

/-- Block.is_inp_ref_present. -/
def Block.is_inp_ref_present (b : Block) (ref : String) : Bool :=
  b.transactions.any (fun t => t.input_refs.any (fun r => r == ref))

/-- Modelled from the spec: the chain index consulted by is_valid, with its
    hash→Block map and its map of all transactions ever included on a chain. -/
structure Chain where
  blocks : List (String × Block)
  all_transactions : List (String × Transaction)

/-- Modelled from the spec: dict.get on a chain index map. -/
def alookup {α : Type} : List (String × α) → String → Option α
  | [], _ => none
  | (k, v) :: rest, key => if k = key then some v else alookup rest key

/-- A Python dict whose keys equal their values, as used by is_valid: an
    insertion ordered list of keys; re-assigning an existing key keeps its
    position, a new key is appended. -/
def dictInsert (d : List String) (k : String) : List String :=
  if k ∈ d then d else d ++ [k]

/-- dict.popitem: removes and returns the most recently inserted key. -/
def popLast (d : List String) : String × List String :=
  (d.getLastD "", d.dropLast)

/-- Modelled from the spec: Python str.split on a single colon, as applied to
    an input reference "txhash:index". -/
def splitChars : List Char → List Char → List (List Char)
  | [], cur => [cur.reverse]
  | c :: rest, cur => if c = ':' then cur.reverse :: splitChars rest [] else splitChars rest (c :: cur)

/-- Modelled from the spec: input_ref.split of the colon separator. -/
def pySplitColon (s : String) : List String :=
  (splitChars s.data []).map (fun l => String.mk l)

/-- Value of a decimal digit list, most significant first; none if a non digit
    occurs. -/
def digitsVal : List Char → Nat → Option Nat
  | [], acc => some acc
  | c :: rest, acc =>
      if c.isDigit then digitsVal rest (10 * acc + (c.toNat - 48)) else none

/-- Modelled from the spec: Python int() applied to the index component of an
    input reference: an optional sign followed by decimal digits; anything
    else raises ValueError (returned as none here). -/
def pyInt (s : String) : Option Int :=
  match s.data with
  | [] => none
  | '-' :: rest => if rest = [] then none else (digitsVal rest 0).map (fun n => -(n : Int))
  | '+' :: rest => if rest = [] then none else (digitsVal rest 0).map (fun n => (n : Int))
  | cs => (digitsVal cs 0).map (fun n => (n : Int))

/-- The double inclusion ancestry walk of is_valid (lines 226-234): starting
    from the parent lookup, while the current block is not None, report True
    if it contains the transaction's hash, else step to its parent's lookup. -/
def walkTxInChain (ch : Chain) (tx : Transaction) : Nat → Option Block → PyResult Bool
  | _, none => .ok false
  | 0, some _ => .diverge
  | fuel+1, some b =>
      if b.is_tx_present tx then .ok true
      else walkTxInChain ch tx fuel (alookup ch.blocks b.parent_hash)

/-- The double spend ancestry walk of is_valid (lines 282-287): while the
    current block is not genesis, report True if it lists the input reference,
    else step to its parent's lookup; stepping onto an absent block raises
    AttributeError (None.is_genesis). -/
def walkSpent (ch : Chain) (ref : String) : Nat → Option Block → PyResult Bool
  | _, none => .exn "AttributeError"
  | 0, some _ => .diverge
  | fuel+1, some b =>
      if b.is_genesis then .ok false
      else if b.is_inp_ref_present ref then .ok true
      else walkSpent ch ref fuel (alookup ch.blocks b.parent_hash)

/-- The provenance ancestry walk of is_valid (lines 302-310): walk every
    ancestor until the lookup fails, accumulating whether some ancestor
    contains the transaction found for the referenced hash. -/
def walkProv (ch : Chain) (txh : String) : Nat → Option Block → Bool → PyResult Bool
  | _, none, acc => .ok acc
  | 0, some _, _ => .diverge
  | fuel+1, some b, acc =>
      let acc1 := match alookup ch.all_transactions txh with
        | some t => acc || b.is_tx_present t
        | none => acc
      walkProv ch txh fuel (alookup ch.blocks b.parent_hash) acc1

/-- The resolvability and accounting step of is_valid for one parsed input
    reference (lines 257-273): a reference resolvable neither globally nor
    locally is rejected; a globally resolvable one has its index parsed and
    bounds checked against the current transaction's input_refs length, then
    contributes its referenced output value and records the referenced
    receiver.  Returns either the updated (total_input, receivers) pair or an
    early (False, reason) result. -/
def resolveRef (ch : Chain) (blk : Block) (tx : Transaction) (txh idxStr : String)
    (ti : Int) (IR : List String) : PyResult ((Int × List String) ⊕ (Bool × String)) :=
  match alookup ch.all_transactions txh with
  | none =>
      if blk.transactions.any (fun t => t.hash == txh) then .ok (.inl (ti, IR))
      else .ok (.inr (false, "Required output not found"))
  | some txTemp =>
      match pyInt idxStr with
      | none => .exn "ValueError"
      | some idx =>
          if idx > (tx.input_refs.length : Int) then .ok (.inr (false, "Required output not found"))
          else
            match txTemp.get_output_at idx with
            | .exn e => .exn e
            | .diverge => .diverge
            | .ok v =>
                match txTemp.get_receiver_at idx with
                | .exn e => .exn e
                | .diverge => .diverge
                | .ok r => .ok (.inl (ti + v, dictInsert IR r))

/-- Processing of one input reference of one transaction by is_valid
    (lines 249-318): parse, resolve and account, then the double spend walk,
    the intra block double spend count, and the provenance checks. -/
def checkInpRef (ch : Chain) (blk : Block) (tx : Transaction) (fuel : Nat) (ref : String)
    (ti : Int) (IR : List String) : PyResult ((Int × List String) ⊕ (Bool × String)) :=
  match pySplitColon ref with
  | [txh, idxStr] =>
      match resolveRef ch blk tx txh idxStr ti IR with
      | .exn e => .exn e
      | .diverge => .diverge
      | .ok (.inr r) => .ok (.inr r)
      | .ok (.inl p) =>
          match walkSpent ch ref fuel (alookup ch.blocks blk.parent_hash) with
          | .exn e => .exn e
          | .diverge => .diverge
          | .ok true => .ok (.inr (false, "Double-spent input"))
          | .ok false =>
              if (blk.transactions.map (fun t => t.input_refs.count ref)).sum > 1 then
                .ok (.inr (false, "Double-spent input"))
              else
                match alookup ch.blocks blk.parent_hash with
                | none => .ok (.inl p)
                | some parent =>
                    match walkProv ch txh fuel (some parent) false with
                    | .exn e => .exn e
                    | .diverge => .diverge
                    | .ok found =>
                        if found || blk.transactions.any (fun t => t.hash == txh) then
                          .ok (.inl p)
                        else .ok (.inr (false, "Input transaction not found"))
  | _ => .exn "ValueError"

/-- The input reference loop of is_valid for one transaction, threading the
    running total_input and the block wide receiver dict. -/
def runRefs (ch : Chain) (blk : Block) (tx : Transaction) (fuel : Nat) :
    List String → Int → List String → PyResult ((Int × List String) ⊕ (Bool × String))
  | [], ti, IR => .ok (.inl (ti, IR))
  | ref :: rest, ti, IR =>
      match checkInpRef ch blk tx fuel ref ti IR with
      | .ok (.inl p) => runRefs ch blk tx fuel rest p.1 p.2
      | .ok (.inr r) => .ok (.inr r)
      | .exn e => .exn e
      | .diverge => .diverge

/-- The mutable block wide dictionaries of is_valid: block_tx_out_inp_user
    (output senders), block_tx_out_out_user (output receivers, never read) and
    block_tx_inp_receivers (receivers of referenced outputs). -/
structure VState where
  OI : List String
  OO : List String
  IR : List String
deriving DecidableEq

/-- The insertion of every output sender of a transaction into a dict. -/
def sendersFold (tx : Transaction) (d : List String) : List String :=
  tx.outputs.foldl (fun d o => dictInsert d o.sender) d

/-- The insertion of every output receiver of a transaction into a dict. -/
def receiversFold (tx : Transaction) (d : List String) : List String :=
  tx.outputs.foldl (fun d o => dictInsert d o.receiver) d

/-- The tail of the per transaction body of is_valid after the input
    reference loop (lines 327-348): the user consistency checks, with their
    destructive popitem calls on the block wide dictionaries, followed by the
    conservation check. -/
def postRefs (tx : Transaction) (OI1 OO1 : List String)
    (res : PyResult ((Int × List String) ⊕ (Bool × String))) :
    PyResult (VState ⊕ (Bool × String)) :=
  match res with
  | .exn e => .exn e
  | .diverge => .diverge
  | .ok (.inr r) => .ok (.inr r)
  | .ok (.inl (ti, IR1)) =>
      let inpUsers := sendersFold tx []
      let tout := tx.get_total_output
      if inpUsers.length > 1 then .ok (.inr (false, "User inconsistencies"))
      else if IR1.length > 0 ∧ OI1.length > 0 then
        if IR1.length > 1 then .ok (.inr (false, "User inconsistencies"))
        else
          let p1 := popLast IR1
          let p2 := popLast OI1
          if p1.1 ≠ p2.1 then .ok (.inr (false, "User inconsistencies"))
          else if ti < tout then .ok (.inr (false, "Creating money"))
          else .ok (.inl ⟨p2.2, OO1, p1.2⟩)
      else if ti < tout then .ok (.inr (false, "Creating money"))
      else .ok (.inl ⟨OI1, OO1, IR1⟩)

/-- Processing of one transaction by the main loop of is_valid
    (lines 215-348): record output senders and receivers, run the double
    inclusion walk and intra block count, process the input references, then
    the user consistency and conservation checks. -/
def checkTx (ch : Chain) (blk : Block) (fuel : Nat) (tx : Transaction) (st : VState) :
    PyResult (VState ⊕ (Bool × String)) :=
  let OI1 := sendersFold tx st.OI
  let OO1 := receiversFold tx st.OO
  match walkTxInChain ch tx fuel (alookup ch.blocks blk.parent_hash) with
  | .exn e => .exn e
  | .diverge => .diverge
  | .ok true => .ok (.inr (false, "Double transaction inclusion"))
  | .ok false =>
      if blk.transactions.countP (fun t => t.hash == tx.hash) > 1 then
        .ok (.inr (false, "Double transaction inclusion"))
      else postRefs tx OI1 OO1 (runRefs ch blk tx fuel tx.input_refs 0 st.IR)

/-- The main transaction loop of is_valid, threading the block wide state. -/
def runTxs (ch : Chain) (blk : Block) (fuel : Nat) :
    List Transaction → VState → PyResult (VState ⊕ (Bool × String))
  | [], st => .ok (.inl st)
  | tx :: rest, st =>
      match checkTx ch blk fuel tx st with
      | .ok (.inl st1) => runTxs ch blk fuel rest st1
      | .ok (.inr r) => .ok (.inr r)
      | .exn e => .exn e
      | .diverge => .diverge

/-- The conversion of the main loop's outcome into the final result of
    is_valid: falling out of the loop yields the success pair. -/
def finishRun (r : PyResult (VState ⊕ (Bool × String))) : PyResult (Bool × String) :=
  match r with
  | .ok (.inl _) => .ok (true, "All checks passed")
  | .ok (.inr p) => .ok p
  | .exn e => .exn e
  | .diverge => .diverge

/-- Block.is_valid (lines 139-354): the ordered checks of the validator, with
    the double hash passed as H and the ancestry walks fuelled. -/
def Block.is_valid (H : String → String) (ch : Chain) (fuel : Nat) (blk : Block) :
    PyResult (Bool × String) :=
  if blk.calculate_merkle_root H ≠ blk.merkle then .ok (false, "Merkle root failed to match")
  else if blk.hash ≠ H blk.header then .ok (false, "Hash failed to match")
  else if blk.transactions.length > 900 then .ok (false, "Too many transactions")
  else if blk.is_genesis then
    if blk.height ≠ 0 ∨ blk.parent_hash ≠ "genesis" ∨ blk.seal_valid = false then
      .ok (false, "Invalid genesis")
    else .ok (true, "All checks passed")
  else
    match alookup ch.blocks blk.parent_hash with
    | none => .ok (false, "Nonexistent parent")
    | some parent =>
        if blk.height ≠ parent.height + 1 then .ok (false, "Invalid height")
        else if blk.timestamp < parent.timestamp then .ok (false, "Invalid timestamp")
        else if blk.seal_valid = false then .ok (false, "Invalid seal")
        else if ¬ (blk.transactions.all (fun t => t.is_valid)) then
          .ok (false, "Malformed transaction included")
        else finishRun (runTxs ch blk fuel blk.transactions ⟨[], [], []⟩)

/-- The ancestry relation used to state the walk claims semantically: b's
    successive parent lookups produce exactly the given list of blocks. -/
def linkedFrom (ch : Chain) : Block → List Block → Prop
  | _, [] => True
  | b, c :: rest => alookup ch.blocks b.parent_hash = some c ∧ linkedFrom ch c rest

/-- The checks of is_valid that precede the per transaction loop, for a
    non genesis block: Merkle, hash, size, parent existence, height,
    timestamp, seal, and individual transaction validity. -/
def preOk (H : String → String) (ch : Chain) (blk parent : Block) : Prop :=
  blk.calculate_merkle_root H = blk.merkle ∧
  blk.hash = H blk.header ∧
  blk.transactions.length ≤ 900 ∧
  blk.is_genesis = false ∧
  alookup ch.blocks blk.parent_hash = some parent ∧
  blk.height = parent.height + 1 ∧
  parent.timestamp ≤ blk.timestamp ∧
  blk.seal_valid = true ∧
  blk.transactions.all (fun t => t.is_valid) = true

/-- The user consistency checks of is_valid passing for one transaction,
    given the incoming block wide state and the receiver dict produced by the
    transaction's input reference loop. -/
def userChecksPass (tx : Transaction) (st : VState) (IR1 : List String) : Prop :=
  (sendersFold tx []).length ≤ 1 ∧
  (IR1.length = 0 ∨ (sendersFold tx st.OI).length = 0 ∨
    (IR1.length = 1 ∧ (popLast IR1).1 = (popLast (sendersFold tx st.OI)).1))

/-- The value that one input reference contributes to total_input in
    is_valid: the referenced output's value when the reference parses and its
    transaction is found in the global transaction map, and nothing
    otherwise (in particular nothing for a reference resolvable only inside
    the block being validated). -/
def refGlobalValue (ch : Chain) (ref : String) : Int :=
  match pySplitColon ref with
  | [txh, idxStr] =>
      match alookup ch.all_transactions txh with
      | none => 0
      | some t =>
          match pyInt idxStr with
          | none => 0
          | some idx =>
              match t.get_output_at idx with
              | .ok v => v
              | .exn _ => 0
              | .diverge => 0
  | _ => 0

/-- The rejection reasons of is_valid. -/
def rejectionReasons : List String :=
  ["Merkle root failed to match", "Hash failed to match", "Too many transactions",
   "Invalid genesis", "Nonexistent parent", "Invalid height", "Invalid timestamp",
   "Invalid seal", "Malformed transaction included", "Double transaction inclusion",
   "Required output not found", "Double-spent input", "Input transaction not found",
   "User inconsistencies", "Creating money"]

/-- The Python exception classes that is_valid can let escape. -/
def pyErrors : List String := ["ValueError", "IndexError", "AttributeError"]

/-- The closed result taxonomy of is_valid: a success pair, a rejection pair
    with one of the closed reasons, an escaped exception of one of the three
    classes, or non termination. -/
def resultInTaxonomy (r : PyResult (Bool × String)) : Prop :=
  match r with
  | .ok (true, s) => s = "All checks passed"
  | .ok (false, s) => s ∈ rejectionReasons
  | .exn e => e ∈ pyErrors
  | .diverge => True

/-- A concrete double hash used by the concrete evaluations below. -/
def H0 (s : String) : String := "#" ++ s

/-- Construction of a block the way __init__ and set_seal_data produce it:
    the Merkle commitment is computed from the transaction list and the hash
    from the resulting header. -/
def mkBlock (H : String → String) (ph : String) (h ts tg : Int)
    (txs : List Transaction) (gen : Bool) (sd : Int) (sv : Bool) : Block :=
  let b : Block := ⟨ph, h, txs, ts, tg, gen, list_to_merkle_hash H txs, sd, "", sv⟩
  { b with hash := H b.header }

/-- A transaction sitting in the genesis block: one output of value 5 locked
    to user B. -/
def t0 : Transaction := ⟨"t0h", [], [⟨"S", "B", 5⟩], true, "t0str"⟩

/-- A genesis block holding t0. -/
def g0 : Block := mkBlock H0 "genesis" 0 0 0 [t0] true 0 true

/-- The base chain index: the genesis block under key "g0", and t0 known
    globally. -/
def chain0 : Chain := ⟨[("g0", g0)], [("t0h", t0)]⟩

/-- A transaction of user B spending t0's output and sending 5 to D. -/
def txL : Transaction := ⟨"tLh", ["t0h:0"], [⟨"B", "D", 5⟩], true, "txLstr"⟩

/-- A transaction spending txL's output, which is resolvable only locally
    (txL is in the candidate block, not in the global transaction map). -/
def txS : Transaction := ⟨"tSh", ["tLh:0"], [⟨"D", "E", 5⟩], true, "txSstr"⟩

/-- The candidate block of the conservation counterexample: txL spends the
    genesis funds, txS spends txL's output, whose value is resolvable only
    locally. -/
def blkC1 : Block := mkBlock H0 "g0" 1 1 0 [txL, txS] false 0 true

/-- A transaction referencing output index 1 of t0, which has only one
    output: the index is out of range for the referenced transaction but not
    greater than the current transaction's input_refs length. -/
def txX : Transaction := ⟨"tXh", ["t0h:1"], [⟨"B", "C", 0⟩], true, "txXstr"⟩

/-- The candidate block of the out of range index evaluation. -/
def blkC2 : Block := mkBlock H0 "g0" 1 1 0 [txX] false 0 true

/-- A transaction of user A with a single zero valued output and no inputs. -/
def txA : Transaction := ⟨"tAh", [], [⟨"A", "A", 0⟩], true, "txAstr"⟩

/-- A transaction of user B spending t0's output (received by B). -/
def txB : Transaction := ⟨"tBh", ["t0h:0"], [⟨"B", "C", 5⟩], true, "txBstr"⟩

/-- The candidate block of the user consistency counterexample: txA's output
    is sent by A while the only input side receiver in the block is B. -/
def blkC3 : Block := mkBlock H0 "g0" 1 1 0 [txA, txB] false 0 true

/-- A transaction with an input reference that does not parse as
    "txhash:index". -/
def txM : Transaction := ⟨"tMh", ["nocolon"], [], true, "txMstr"⟩

/-- The candidate block of the unparseable reference evaluation. -/
def blkC4 : Block := mkBlock H0 "g0" 1 1 0 [txM] false 0 true

/-- A non genesis block containing txL, hence spending input "t0h:0". -/
def b1 : Block := mkBlock H0 "g0" 1 1 0 [txL] false 0 true

/-- The chain index after b1 was accepted: both blocks present, both
    transactions known globally. -/
def chain6 : Chain := ⟨[("g0", g0), ("b1", b1)], [("t0h", t0), ("tLh", txL)]⟩

/-- A transaction spending "t0h:0" again on top of b1. -/
def txD : Transaction := ⟨"tDh", ["t0h:0"], [⟨"B", "E", 5⟩], true, "txDstr"⟩

/-- The candidate block of the double spend witness. -/
def blkC6 : Block := mkBlock H0 "b1" 2 2 0 [txD] false 0 true

/-- The candidate block of the double inclusion witness: it includes t0,
    already included in the genesis block. -/
def blkC7 : Block := mkBlock H0 "g0" 1 1 0 [t0] false 0 true

/-- A non genesis block whose parent hash is absent from the chain index. -/
def bBad : Block := mkBlock H0 "missing" 1 1 0 [] false 0 true

/-- A chain index whose only block has a dangling parent link. -/
def chain9 : Chain := ⟨[("bb", bBad)], []⟩

/-- An individually invalid, value creating transaction. -/
def tq : Transaction := ⟨"tqh", ["zz"], [⟨"A", "B", 9⟩], false, "tqstr"⟩

/-- A genesis block holding two copies of the invalid transaction tq. -/
def gBad : Block := mkBlock H0 "genesis" 0 0 0 [tq, tq] true 0 true

/-- The last element of d :: l: the block on which an ancestry walk that
    started at d and traversed l ends. -/
def lastD {α : Type} (d : α) : List α → α
  | [] => d
  | a :: l => lastD a l

/-- The shapes an input reference processing step can take: success, a
    rejection pair with one of its three reasons, an exception, or
    divergence. -/
def refShape (r : PyResult ((Int × List String) ⊕ (Bool × String))) : Prop :=
  match r with
  | .ok (.inl _) => True
  | .ok (.inr (b, s)) =>
      b = false ∧
      s ∈ ["Required output not found", "Double-spent input", "Input transaction not found"]
  | .exn e => e ∈ pyErrors
  | .diverge => True

/-- The shapes a per transaction processing step can take. -/
def txShape (r : PyResult (VState ⊕ (Bool × String))) : Prop :=
  match r with
  | .ok (.inl _) => True
  | .ok (.inr (b, s)) =>
      b = false ∧
      s ∈ ["Double transaction inclusion", "Required output not found", "Double-spent input",
           "Input transaction not found", "User inconsistencies", "Creating money"]
  | .exn e => e ∈ pyErrors
  | .diverge => True

/-- The receiver that processing an input reference records into
    block_tx_inp_receivers (lines 252-273): the reference parses as
    "txhash:index", the referenced transaction is found in the global
    transaction map, the index parses, and get_receiver_at returns r. -/
def recordedReceiver (ch : Chain) (ref : String) (r : String) : Prop :=
  ∃ txh idxStr t idx, pySplitColon ref = [txh, idxStr] ∧
    alookup ch.all_transactions txh = some t ∧ pyInt idxStr = some idx ∧
    t.get_receiver_at idx = .ok r

/-- A transaction whose two outputs carry distinct senders. -/
def txW : Transaction := ⟨"tWh", [], [⟨"A", "A", 0⟩, ⟨"B", "B", 0⟩], true, "txWstr"⟩

/-- The candidate block of the user inconsistency witness: a single
    transaction sent by two different users. -/
def blkCW : Block := mkBlock H0 "g0" 1 1 0 [txW] false 0 true

/- ------------------------------------------------------------------ -/
/- Theorems                                                           -/
/- ------------------------------------------------------------------ -/

theorem merkleAux_nil (H : String → String) (n : Nat) : merkleAux H n [] = H "" := by
  cases n <;> rfl

theorem merkleAux_single (H : String → String) (n : Nat) (t : Transaction) :
    merkleAux H n [t] = H t.toStr := by
  cases n <;> rfl

theorem merkleAux_irrel (H : String → String) :
    ∀ (m : Nat) (l : List Transaction) (n : Nat), l.length ≤ m → l.length ≤ n →
      merkleAux H n l = list_to_merkle_hash H l := by
  intro m
  induction m with
  | zero =>
      intro l n hm _
      have hnil : l = [] := List.eq_nil_of_length_eq_zero (Nat.le_zero.mp hm)
      subst hnil
      simp [list_to_merkle_hash, merkleAux_nil]
  | succ m ih =>
      intro l n hm hn
      match l with
      | [] => simp [list_to_merkle_hash, merkleAux_nil]
      | [t] => simp [list_to_merkle_hash, merkleAux_single]
      | a :: b :: rest =>
          cases n with
          | zero => simp at hn
          | succ n =>
              have e1 : merkleAux H (n + 1) (a :: b :: rest) =
                  H (merkleAux H n ((a :: b :: rest).take ((a :: b :: rest).length / 2)) ++
                     merkleAux H n ((a :: b :: rest).drop ((a :: b :: rest).length / 2))) := rfl
              have e2 : list_to_merkle_hash H (a :: b :: rest) =
                  H (merkleAux H (rest.length + 1) ((a :: b :: rest).take ((a :: b :: rest).length / 2)) ++
                     merkleAux H (rest.length + 1) ((a :: b :: rest).drop ((a :: b :: rest).length / 2))) := rfl
              simp only [List.length_cons] at hm hn
              have hTm : ((a :: b :: rest).take ((a :: b :: rest).length / 2)).length ≤ m := by
                simp only [List.length_take, List.length_cons]; omega
              have hDm : ((a :: b :: rest).drop ((a :: b :: rest).length / 2)).length ≤ m := by
                simp only [List.length_drop, List.length_cons]; omega
              have hTn : ((a :: b :: rest).take ((a :: b :: rest).length / 2)).length ≤ n := by
                simp only [List.length_take, List.length_cons]; omega
              have hDn : ((a :: b :: rest).drop ((a :: b :: rest).length / 2)).length ≤ n := by
                simp only [List.length_drop, List.length_cons]; omega
              have hTr : ((a :: b :: rest).take ((a :: b :: rest).length / 2)).length ≤ rest.length + 1 := by
                simp only [List.length_take, List.length_cons]; omega
              have hDr : ((a :: b :: rest).drop ((a :: b :: rest).length / 2)).length ≤ rest.length + 1 := by
                simp only [List.length_drop, List.length_cons]; omega
              rw [e1, e2, ih _ n hTm hTn, ih _ n hDm hDn,
                  ih _ (rest.length + 1) hTm hTr, ih _ (rest.length + 1) hDm hDr]

theorem merkle_eq_spec_aux (H : String → String) :
    ∀ (m : Nat) (l : List Transaction), l.length ≤ m →
      list_to_merkle_hash H l = merkleRootSpec H l := by
  intro m
  induction m with
  | zero =>
      intro l hm
      have hnil : l = [] := List.eq_nil_of_length_eq_zero (Nat.le_zero.mp hm)
      subst hnil
      simp [merkleRootSpec, list_to_merkle_hash, merkleAux_nil]
  | succ m ih =>
      intro l hm
      match l with
      | [] => simp [merkleRootSpec, list_to_merkle_hash, merkleAux_nil]
      | [t] => simp [merkleRootSpec, list_to_merkle_hash, merkleAux_single]
      | a :: b :: rest =>
          have e2 : list_to_merkle_hash H (a :: b :: rest) =
              H (merkleAux H (rest.length + 1) ((a :: b :: rest).take ((a :: b :: rest).length / 2)) ++
                 merkleAux H (rest.length + 1) ((a :: b :: rest).drop ((a :: b :: rest).length / 2))) := rfl
          simp only [List.length_cons] at hm
          have hTm : ((a :: b :: rest).take ((a :: b :: rest).length / 2)).length ≤ m := by
            simp only [List.length_take, List.length_cons]; omega
          have hDm : ((a :: b :: rest).drop ((a :: b :: rest).length / 2)).length ≤ m := by
            simp only [List.length_drop, List.length_cons]; omega
          have hTr : ((a :: b :: rest).take ((a :: b :: rest).length / 2)).length ≤ rest.length + 1 := by
            simp only [List.length_take, List.length_cons]; omega
          have hDr : ((a :: b :: rest).drop ((a :: b :: rest).length / 2)).length ≤ rest.length + 1 := by
            simp only [List.length_drop, List.length_cons]; omega
          rw [merkleRootSpec]
          rw [if_neg (by simp), if_neg (by simp)]
          rw [e2, merkleAux_irrel H (rest.length + 1) _ (rest.length + 1) hTr hTr,
              merkleAux_irrel H (rest.length + 1) _ (rest.length + 1) hDr hDr,
              ih _ hTm, ih _ hDm]

/-- C5: for every transaction list, calculate_merkle_root (through
    list_to_merkle_hash) equals the reference recursive definition: the empty
    list yields the double hash of the empty string, a singleton yields the
    double hash of the transaction's string encoding with no combination
    step, and a list of n ≥ 2 elements yields the double hash of the
    concatenation of the root of the first ⌊n/2⌋ elements with the root of
    the remaining elements. -/
theorem c5_merkle_equals_reference (H : String → String) (l : List Transaction) :
    list_to_merkle_hash H l = merkleRootSpec H l :=
  merkle_eq_spec_aux H l.length l (Nat.le_refl _)

/-- C8: for every block and every seal value d, immediately after
    set_seal_data d the stored seal data is d and the stored hash field
    equals the double hash of the block's header string computed with the
    new seal data. -/
theorem c8_set_seal_recomputes_hash (H : String → String) (b : Block) (d : Int) :
    (b.set_seal_data H d).seal_data = d ∧
    (b.set_seal_data H d).hash = H ((b.set_seal_data H d).header) :=
  ⟨rfl, rfl⟩

/-- C10: for every genesis block whose recomputed Merkle root and header hash
    match the stored values, whose transaction count is at most 900, whose
    height is 0, whose parent hash is "genesis" and whose seal is valid,
    is_valid accepts with "All checks passed" for every chain index and fuel,
    performing no per transaction checks. -/
theorem c10_genesis_accepts_without_tx_checks (H : String → String) (ch : Chain)
    (fuel : Nat) (blk : Block)
    (hg : blk.is_genesis = true)
    (hm : blk.calculate_merkle_root H = blk.merkle)
    (hh : blk.hash = H blk.header)
    (hn : blk.transactions.length ≤ 900)
    (hht : blk.height = 0)
    (hp : blk.parent_hash = "genesis")
    (hs : blk.seal_valid = true) :
    Block.is_valid H ch fuel blk = .ok (true, "All checks passed") := by
  unfold Block.is_valid
  rw [if_neg (by simp [hm]), if_neg (by simp [hh]), if_neg (by omega),
      if_pos (by simp [hg]), if_neg (by simp [hht, hp, hs])]

/-- Witness for C10: a concrete genesis block holding two copies of an
    individually invalid, value creating transaction is accepted. -/
theorem c10_witness :
    Block.is_valid H0 chain0 5 gBad = .ok (true, "All checks passed") ∧
    gBad.transactions = [tq, tq] ∧ tq.is_valid = false ∧ tq.get_total_output = 9 :=
  ⟨c10_genesis_accepts_without_tx_checks H0 chain0 5 gBad rfl rfl rfl (by decide)
      rfl rfl rfl, rfl, rfl, by decide⟩

/-- C9: the double spent input ancestry walk of is_valid, on a chain whose
    parent links from the start block traverse the given path: if every block
    on the walk is non genesis and free of the input reference and the last
    block's parent is absent from the chain index, the walk raises
    AttributeError by dereferencing the absent block; if the walk's path ends
    at a genesis block, the walk terminates and returns a value. -/
theorem c9_walk_total_iff_reaches_genesis (ch : Chain) (ref : String) :
    (∀ (b0 : Block) (path : List Block) (fuel : Nat),
       linkedFrom ch b0 path →
       (∀ b ∈ b0 :: path, b.is_genesis = false ∧ b.is_inp_ref_present ref = false) →
       alookup ch.blocks (lastD b0 path).parent_hash = none →
       path.length < fuel →
       walkSpent ch ref fuel (some b0) = .exn "AttributeError") ∧
    (∀ (b0 : Block) (path : List Block) (fuel : Nat),
       linkedFrom ch b0 path →
       (lastD b0 path).is_genesis = true →
       path.length < fuel →
       ∃ r, walkSpent ch ref fuel (some b0) = .ok r) := by
  constructor
  · intro b0 path
    induction path generalizing b0 with
    | nil =>
        intro fuel _ hprops hlast hfuel
        cases fuel with
        | zero => simp at hfuel
        | succ f =>
            obtain ⟨hg, hr⟩ := hprops b0 (by simp)
            simp only [lastD] at hlast
            simp [walkSpent, hg, hr, hlast]
    | cons c rest ih =>
        intro fuel hlink hprops hlast hfuel
        obtain ⟨hstep, hlink2⟩ := hlink
        obtain ⟨hg, hr⟩ := hprops b0 (by simp)
        cases fuel with
        | zero => simp at hfuel
        | succ f =>
            have hred : walkSpent ch ref (f + 1) (some b0) = walkSpent ch ref f (some c) := by
              simp [walkSpent, hg, hr, hstep]
            rw [hred]
            apply ih c f hlink2
            · intro b hb
              exact hprops b (by simp [hb])
            · simpa only [lastD] using hlast
            · simp only [List.length_cons] at hfuel; omega
  · intro b0 path
    induction path generalizing b0 with
    | nil =>
        intro fuel _ hlast hfuel
        cases fuel with
        | zero => simp at hfuel
        | succ f =>
            simp only [lastD] at hlast
            exact ⟨false, by simp [walkSpent, hlast]⟩
    | cons c rest ih =>
        intro fuel hlink hlast hfuel
        obtain ⟨hstep, hlink2⟩ := hlink
        cases fuel with
        | zero => simp at hfuel
        | succ f =>
            by_cases hg : b0.is_genesis
            · exact ⟨false, by simp [walkSpent, hg]⟩
            · by_cases hr : b0.is_inp_ref_present ref
              · exact ⟨true, by simp [walkSpent, hg, hr]⟩
              · have hred : walkSpent ch ref (f + 1) (some b0) = walkSpent ch ref f (some c) := by
                  simp [walkSpent, hg, hr, hstep]
                rw [hred]
                apply ih c f hlink2
                · simpa only [lastD] using hlast
                · simp only [List.length_cons] at hfuel; omega

/-- Witness for C9: a dangling parent link makes the walk raise
    AttributeError, while a chain reaching genesis lets it return. -/
theorem c9_witness :
    walkSpent chain9 "t0h:0" 5 (some bBad) = .exn "AttributeError" ∧
    (∃ r, walkSpent chain0 "t0h:9" 5 (some g0) = .ok r) := by
  constructor
  · exact (c9_walk_total_iff_reaches_genesis chain9 "t0h:0").1 bBad [] 5 trivial
      (by decide) (by decide) (by decide)
  · exact (c9_walk_total_iff_reaches_genesis chain0 "t0h:9").2 g0 [] 5 trivial
      (by decide) (by decide)

/-- Counterexample to C1 as stated: in blkC1, transaction txS's single input
    reference resolves only locally (to txL, inside the same block, absent
    from the global map); the referenced output value 5 equals txS's total
    output 5, so per the claim txS must not be rejected with "Creating
    money" — yet is_valid rejects with exactly that reason, because locally
    resolvable references contribute nothing to total_input. -/
theorem c1_counterexample :
    Block.is_valid H0 chain0 20 blkC1 = .ok (false, "Creating money") ∧
    txS.get_total_output = 5 ∧
    txL.get_output_at 0 = .ok 5 ∧
    alookup chain0.all_transactions "tLh" = none ∧
    txL ∈ blkC1.transactions ∧
    txS.input_refs = ["tLh:0"] := by decide

/-- C2, evaluated at the failing input: transaction txX references output
    index 1 of t0, which has a single output; the index is out of range for
    the referenced transaction yet not greater than txX's own input_refs
    length, so is_valid raises IndexError instead of returning
    (False, "Required output not found"). -/
theorem c2_out_of_range_index_raises :
    Block.is_valid H0 chain0 20 blkC2 = .exn "IndexError" ∧
    t0.outputs.length = 1 ∧
    txX.input_refs = ["t0h:1"] ∧
    ¬ ((1 : Int) > (txX.input_refs.length : Int)) := by decide

/-- Counterexample to C3 as stated: in blkC3 the only input side receiver
    recorded block wide is B, while txA's output is sent by A ≠ B; per the
    claim the block must be rejected with "User inconsistencies", yet
    is_valid accepts it, because the popitem comparison only inspects the
    most recently recorded sender. -/
theorem c3_counterexample :
    Block.is_valid H0 chain0 20 blkC3 = .ok (true, "All checks passed") ∧
    txA.outputs.map (fun o => o.sender) = ["A"] ∧
    txB.outputs.map (fun o => o.sender) = ["B"] ∧
    t0.get_receiver_at 0 = .ok "B" ∧
    txB.input_refs = ["t0h:0"] ∧
    txA ∈ blkC3.transactions := by decide

/-- Counterexample to C4 as stated: a transaction whose input reference does
    not parse as "txhash:index" makes is_valid raise ValueError instead of
    returning a result pair. -/
theorem c4_counterexample :
    Block.is_valid H0 chain0 20 blkC4 = .exn "ValueError" ∧
    txM.is_valid = true ∧
    txM.input_refs = ["nocolon"] := by decide

theorem is_valid_run (H : String → String) (ch : Chain) (fuel : Nat) (blk parent : Block)
    (h : preOk H ch blk parent) :
    Block.is_valid H ch fuel blk = finishRun (runTxs ch blk fuel blk.transactions ⟨[], [], []⟩) := by
  obtain ⟨h1, h2, h3, h4, h5, h6, h7, h8, h9⟩ := h
  have h3a : ¬ blk.transactions.length > 900 := by omega
  have h7a : ¬ blk.timestamp < parent.timestamp := by omega
  simp [Block.is_valid, h1, h2, h3a, h4, h5, h6, h7a, h8, h9]

theorem runTxs_append (ch : Chain) (blk : Block) (fuel : Nat) (l1 l2 : List Transaction)
    (st : VState) :
    runTxs ch blk fuel (l1 ++ l2) st =
      match runTxs ch blk fuel l1 st with
      | .ok (.inl st1) => runTxs ch blk fuel l2 st1
      | .ok (.inr r) => .ok (.inr r)
      | .exn e => .exn e
      | .diverge => .diverge := by
  induction l1 generalizing st with
  | nil => simp [runTxs]
  | cons tx rest ih =>
      cases hc : checkTx ch blk fuel tx st with
      | ok v =>
          cases v with
          | inl st1 => simp [runTxs, hc, ih]
          | inr r => simp [runTxs, hc]
      | exn e => simp [runTxs, hc]
      | diverge => simp [runTxs, hc]

theorem runRefs_append (ch : Chain) (blk : Block) (tx : Transaction) (fuel : Nat)
    (l1 l2 : List String) (ti : Int) (IR : List String) :
    runRefs ch blk tx fuel (l1 ++ l2) ti IR =
      match runRefs ch blk tx fuel l1 ti IR with
      | .ok (.inl p) => runRefs ch blk tx fuel l2 p.1 p.2
      | .ok (.inr r) => .ok (.inr r)
      | .exn e => .exn e
      | .diverge => .diverge := by
  induction l1 generalizing ti IR with
  | nil => simp [runRefs]
  | cons ref rest ih =>
      cases hc : checkInpRef ch blk tx fuel ref ti IR with
      | ok v =>
          cases v with
          | inl p => simp [runRefs, hc, ih]
          | inr r => simp [runRefs, hc]
      | exn e => simp [runRefs, hc]
      | diverge => simp [runRefs, hc]

theorem is_valid_of_tx_reject (H : String → String) (ch : Chain) (fuel : Nat)
    (blk parent : Block) (pre post : List Transaction) (tx : Transaction)
    (st : VState) (r : Bool × String)
    (h : preOk H ch blk parent)
    (hsplit : blk.transactions = pre ++ tx :: post)
    (hpre : runTxs ch blk fuel pre ⟨[], [], []⟩ = .ok (.inl st))
    (htx : checkTx ch blk fuel tx st = .ok (.inr r)) :
    Block.is_valid H ch fuel blk = .ok r := by
  rw [is_valid_run H ch fuel blk parent h, hsplit, runTxs_append, hpre]
  simp [runTxs, htx, finishRun]

theorem walkTxInChain_found (ch : Chain) (tx : Transaction) :
    ∀ (path : List Block) (b0 : Block) (fuel : Nat),
      linkedFrom ch b0 path →
      (b0 :: path).any (fun b => b.is_tx_present tx) = true →
      path.length < fuel →
      walkTxInChain ch tx fuel (some b0) = .ok true := by
  intro path
  induction path with
  | nil =>
      intro b0 fuel _ hany hfuel
      cases fuel with
      | zero => simp at hfuel
      | succ f =>
          simp only [List.any_cons, List.any_nil, Bool.or_false] at hany
          simp [walkTxInChain, hany]
  | cons c rest ih =>
      intro b0 fuel hlink hany hfuel
      obtain ⟨hstep, hlink2⟩ := hlink
      cases fuel with
      | zero => simp at hfuel
      | succ f =>
          by_cases hb : b0.is_tx_present tx
          · simp [walkTxInChain, hb]
          · have hany2 : (c :: rest).any (fun b => b.is_tx_present tx) = true := by
              simp only [List.any_cons] at hany ⊢
              simpa [hb] using hany
            have hred : walkTxInChain ch tx (f + 1) (some b0) = walkTxInChain ch tx f (some c) := by
              simp [walkTxInChain, hb, hstep]
            rw [hred]
            exact ih c f hlink2 hany2 (by simp only [List.length_cons] at hfuel; omega)

theorem walkSpent_found (ch : Chain) (ref : String) :
    ∀ (path : List Block) (b0 : Block) (fuel : Nat),
      linkedFrom ch b0 path →
      (∀ b ∈ b0 :: path, b.is_genesis = false) →
      (b0 :: path).any (fun b => b.is_inp_ref_present ref) = true →
      path.length < fuel →
      walkSpent ch ref fuel (some b0) = .ok true := by
  intro path
  induction path with
  | nil =>
      intro b0 fuel _ hng hany hfuel
      cases fuel with
      | zero => simp at hfuel
      | succ f =>
          have hg := hng b0 (by simp)
          simp only [List.any_cons, List.any_nil, Bool.or_false] at hany
          simp [walkSpent, hg, hany]
  | cons c rest ih =>
      intro b0 fuel hlink hng hany hfuel
      obtain ⟨hstep, hlink2⟩ := hlink
      cases fuel with
      | zero => simp at hfuel
      | succ f =>
          have hg := hng b0 (by simp)
          by_cases hb : b0.is_inp_ref_present ref
          · simp [walkSpent, hg, hb]
          · have hany2 : (c :: rest).any (fun b => b.is_inp_ref_present ref) = true := by
              simp only [List.any_cons] at hany ⊢
              simpa [hb] using hany
            have hred : walkSpent ch ref (f + 1) (some b0) = walkSpent ch ref f (some c) := by
              simp [walkSpent, hg, hb, hstep]
            rw [hred]
            apply ih c f hlink2 _ hany2 (by simp only [List.length_cons] at hfuel; omega)
            intro b hb2
            exact hng b (by simp [hb2])

theorem walkSpent_true_path (ch : Chain) (ref : String) :
    ∀ (fuel : Nat) (b0 : Block),
      walkSpent ch ref fuel (some b0) = .ok true →
      ∃ path, linkedFrom ch b0 path ∧ (∀ b ∈ b0 :: path, b.is_genesis = false) ∧
        (lastD b0 path).is_inp_ref_present ref = true := by
  intro fuel
  induction fuel with
  | zero => intro b0 h; simp [walkSpent] at h
  | succ f ih =>
      intro b0 h
      by_cases hg : b0.is_genesis
      · simp [walkSpent, hg] at h
      · by_cases hr : b0.is_inp_ref_present ref
        · refine ⟨[], trivial, ?_, hr⟩
          intro b hb
          simp only [List.mem_singleton] at hb
          subst hb
          simpa using hg
        · have hred : walkSpent ch ref (f + 1) (some b0) =
              walkSpent ch ref f (alookup ch.blocks b0.parent_hash) := by
            simp [walkSpent, hg, hr]
          rw [hred] at h
          cases he : alookup ch.blocks b0.parent_hash with
          | none => rw [he] at h; simp [walkSpent] at h
          | some c =>
              rw [he] at h
              obtain ⟨path, hl, hng, hlast⟩ := ih c h
              refine ⟨c :: path, ⟨he, hl⟩, ?_, by simpa [lastD] using hlast⟩
              intro b hb
              rcases List.mem_cons.mp hb with hb | hb
              · subst hb; simpa using hg
              · exact hng b hb

theorem walkTxInChain_true_path (ch : Chain) (tx : Transaction) :
    ∀ (fuel : Nat) (b0 : Block),
      walkTxInChain ch tx fuel (some b0) = .ok true →
      ∃ path, linkedFrom ch b0 path ∧ (lastD b0 path).is_tx_present tx = true := by
  intro fuel
  induction fuel with
  | zero => intro b0 h; simp [walkTxInChain] at h
  | succ f ih =>
      intro b0 h
      by_cases hb : b0.is_tx_present tx
      · exact ⟨[], trivial, hb⟩
      · have hred : walkTxInChain ch tx (f + 1) (some b0) =
            walkTxInChain ch tx f (alookup ch.blocks b0.parent_hash) := by
          simp [walkTxInChain, hb]
        rw [hred] at h
        cases he : alookup ch.blocks b0.parent_hash with
        | none => rw [he] at h; simp [walkTxInChain] at h
        | some c =>
            rw [he] at h
            obtain ⟨path, hl, hlast⟩ := ih c h
            exact ⟨c :: path, ⟨he, hl⟩, by simpa [lastD] using hlast⟩

theorem pyListGet_shape (l : List Output) (i : Int) :
    (∃ o, pyListGet l i = .ok o) ∨ pyListGet l i = .exn "IndexError" := by
  simp only [pyListGet]
  split <;> split <;> simp

theorem get_output_at_shape (tx : Transaction) (i : Int) :
    (∃ v, tx.get_output_at i = .ok v) ∨ tx.get_output_at i = .exn "IndexError" := by
  rcases pyListGet_shape tx.outputs i with ⟨o, h⟩ | h
  · exact Or.inl ⟨o.amount, by simp [Transaction.get_output_at, h]⟩
  · exact Or.inr (by simp [Transaction.get_output_at, h])

theorem get_receiver_at_shape (tx : Transaction) (i : Int) :
    (∃ r, tx.get_receiver_at i = .ok r) ∨ tx.get_receiver_at i = .exn "IndexError" := by
  rcases pyListGet_shape tx.outputs i with ⟨o, h⟩ | h
  · exact Or.inl ⟨o.receiver, by simp [Transaction.get_receiver_at, h]⟩
  · exact Or.inr (by simp [Transaction.get_receiver_at, h])

theorem resolveRef_msg (ch : Chain) (blk : Block) (tx : Transaction) (txh idxStr : String)
    (ti : Int) (IR : List String) (r : Bool × String)
    (h : resolveRef ch blk tx txh idxStr ti IR = .ok (.inr r)) :
    r = (false, "Required output not found") := by
  unfold resolveRef at h
  split at h
  · split at h
    · simp at h
    · injection h with h2
      injection h2 with h3
      exact h3.symm
  · split at h
    · simp at h
    · split at h
      · injection h with h2
        injection h2 with h3
        exact h3.symm
      · split at h
        · simp at h
        · simp at h
        · split at h
          · simp at h
          · simp at h
          · simp at h

theorem resolveRef_shape (ch : Chain) (blk : Block) (tx : Transaction) (txh idxStr : String)
    (ti : Int) (IR : List String) :
    refShape (resolveRef ch blk tx txh idxStr ti IR) := by
  unfold resolveRef
  split
  · split
    · simp [refShape]
    · simp [refShape]
  · split
    · simp [refShape, pyErrors]
    · split
      · simp [refShape]
      · rcases get_output_at_shape _ _ with ⟨v, hv⟩ | hv <;> rw [hv]
        · rcases get_receiver_at_shape _ _ with ⟨r, hr⟩ | hr <;> rw [hr]
          · simp [refShape]
          · simp [refShape, pyErrors]
        · simp [refShape, pyErrors]

theorem walkSpent_shape (ch : Chain) (ref : String) :
    ∀ (fuel : Nat) (ob : Option Block),
      (∃ b, walkSpent ch ref fuel ob = .ok b) ∨
      walkSpent ch ref fuel ob = .exn "AttributeError" ∨
      walkSpent ch ref fuel ob = .diverge := by
  intro fuel
  induction fuel with
  | zero =>
      intro ob
      cases ob with
      | none => exact Or.inr (Or.inl rfl)
      | some b => exact Or.inr (Or.inr rfl)
  | succ f ih =>
      intro ob
      cases ob with
      | none => exact Or.inr (Or.inl rfl)
      | some b =>
          by_cases hg : b.is_genesis
          · exact Or.inl ⟨false, by simp [walkSpent, hg]⟩
          · by_cases hr : b.is_inp_ref_present ref
            · exact Or.inl ⟨true, by simp [walkSpent, hg, hr]⟩
            · have hred : walkSpent ch ref (f + 1) (some b) =
                  walkSpent ch ref f (alookup ch.blocks b.parent_hash) := by
                simp [walkSpent, hg, hr]
              rw [hred]
              exact ih _

theorem walkTxInChain_shape (ch : Chain) (tx : Transaction) :
    ∀ (fuel : Nat) (ob : Option Block),
      (∃ b, walkTxInChain ch tx fuel ob = .ok b) ∨ walkTxInChain ch tx fuel ob = .diverge := by
  intro fuel
  induction fuel with
  | zero =>
      intro ob
      cases ob with
      | none => exact Or.inl ⟨false, rfl⟩
      | some b => exact Or.inr rfl
  | succ f ih =>
      intro ob
      cases ob with
      | none => exact Or.inl ⟨false, rfl⟩
      | some b =>
          by_cases hb : b.is_tx_present tx
          · exact Or.inl ⟨true, by simp [walkTxInChain, hb]⟩
          · have hred : walkTxInChain ch tx (f + 1) (some b) =
                walkTxInChain ch tx f (alookup ch.blocks b.parent_hash) := by
              simp [walkTxInChain, hb]
            rw [hred]
            exact ih _

theorem walkProv_shape (ch : Chain) (txh : String) :
    ∀ (fuel : Nat) (ob : Option Block) (acc : Bool),
      (∃ b, walkProv ch txh fuel ob acc = .ok b) ∨ walkProv ch txh fuel ob acc = .diverge := by
  intro fuel
  induction fuel with
  | zero =>
      intro ob acc
      cases ob with
      | none => exact Or.inl ⟨acc, rfl⟩
      | some b => exact Or.inr rfl
  | succ f ih =>
      intro ob acc
      cases ob with
      | none => exact Or.inl ⟨acc, rfl⟩
      | some b =>
          have hred : ∃ acc1, walkProv ch txh (f + 1) (some b) acc =
              walkProv ch txh f (alookup ch.blocks b.parent_hash) acc1 := by
            exact ⟨_, rfl⟩
          obtain ⟨acc1, hred⟩ := hred
          rw [hred]
          exact ih _ _

theorem checkInpRef_shape (ch : Chain) (blk : Block) (tx : Transaction) (fuel : Nat)
    (ref : String) (ti : Int) (IR : List String) :
    refShape (checkInpRef ch blk tx fuel ref ti IR) := by
  unfold checkInpRef
  cases hsp : pySplitColon ref with
  | nil => simp [refShape, pyErrors]
  | cons a t =>
      cases t with
      | nil => simp [refShape, pyErrors]
      | cons b t2 =>
          cases t2 with
          | cons c t3 => simp [refShape, pyErrors]
          | nil =>
              dsimp only
              cases hres : resolveRef ch blk tx a b ti IR with
              | ok v =>
                  cases v with
                  | inl p =>
                      dsimp only
                      rcases walkSpent_shape ch ref fuel (alookup ch.blocks blk.parent_hash) with
                        ⟨b2, hw⟩ | hw | hw <;> rw [hw]
                      · cases b2 with
                        | true => simp [refShape]
                        | false =>
                            dsimp only
                            split
                            · simp [refShape]
                            · cases hpar : alookup ch.blocks blk.parent_hash with
                              | none => simp [refShape]
                              | some parent =>
                                  dsimp only
                                  rcases walkProv_shape ch a fuel (some parent) false with
                                    ⟨b3, hp⟩ | hp <;> rw [hp] <;> dsimp only
                                  · split <;> simp [refShape]
                                  · simp [refShape]
                      · simp [refShape, pyErrors]
                      · simp [refShape]
                  | inr r =>
                      have hmsg := resolveRef_msg ch blk tx a b ti IR r hres
                      subst hmsg
                      simp [refShape]
              | exn e =>
                  have hs := resolveRef_shape ch blk tx a b ti IR
                  rw [hres] at hs
                  simpa [refShape] using hs
              | diverge => simp [refShape]

theorem runRefs_shape (ch : Chain) (blk : Block) (tx : Transaction) (fuel : Nat) :
    ∀ (refs : List String) (ti : Int) (IR : List String),
      refShape (runRefs ch blk tx fuel refs ti IR) := by
  intro refs
  induction refs with
  | nil => intro ti IR; simp [runRefs, refShape]
  | cons ref rest ih =>
      intro ti IR
      have hs := checkInpRef_shape ch blk tx fuel ref ti IR
      cases hc : checkInpRef ch blk tx fuel ref ti IR with
      | ok v =>
          cases v with
          | inl p => simpa [runRefs, hc] using ih p.1 p.2
          | inr r =>
              rw [hc] at hs
              simp only [refShape] at hs
              simpa [runRefs, hc, refShape] using hs
      | exn e =>
          rw [hc] at hs
          simp only [refShape] at hs
          simpa [runRefs, hc, refShape] using hs
      | diverge => simp [runRefs, hc, refShape]

theorem postRefs_shape (tx : Transaction) (OI1 OO1 : List String)
    (res : PyResult ((Int × List String) ⊕ (Bool × String)))
    (h : refShape res) :
    txShape (postRefs tx OI1 OO1 res) := by
  cases res with
  | ok v =>
      cases v with
      | inl p =>
          obtain ⟨ti, IR1⟩ := p
          unfold postRefs
          dsimp only
          split
          · simp [txShape]
          · split
            · split
              · simp [txShape]
              · split
                · simp [txShape]
                · split <;> simp [txShape]
            · split <;> simp [txShape]
      | inr r =>
          obtain ⟨b, s⟩ := r
          simp only [refShape, List.mem_cons, List.not_mem_nil, or_false] at h
          obtain ⟨hb, hs⟩ := h
          subst hb
          simp only [postRefs, txShape]
          rcases hs with h2 | h2 | h2 <;> subst h2 <;> simp
  | exn e => simpa [postRefs, txShape, refShape] using h
  | diverge => simp [postRefs, txShape]

theorem checkTx_shape (ch : Chain) (blk : Block) (fuel : Nat) (tx : Transaction) (st : VState) :
    txShape (checkTx ch blk fuel tx st) := by
  unfold checkTx
  dsimp only
  rcases walkTxInChain_shape ch tx fuel (alookup ch.blocks blk.parent_hash) with ⟨b, hw⟩ | hw <;>
    rw [hw]
  · cases b with
    | true => simp [txShape]
    | false =>
        dsimp only
        split
        · simp [txShape]
        · exact postRefs_shape tx _ _ _ (runRefs_shape ch blk tx fuel tx.input_refs 0 st.IR)
  · simp [txShape]

theorem runTxs_shape (ch : Chain) (blk : Block) (fuel : Nat) :
    ∀ (txs : List Transaction) (st : VState), txShape (runTxs ch blk fuel txs st) := by
  intro txs
  induction txs with
  | nil => intro st; simp [runTxs, txShape]
  | cons tx rest ih =>
      intro st
      have hs := checkTx_shape ch blk fuel tx st
      cases hc : checkTx ch blk fuel tx st with
      | ok v =>
          cases v with
          | inl st1 => simpa [runTxs, hc] using ih st1
          | inr r =>
              rw [hc] at hs
              simpa [runTxs, hc, txShape] using hs
      | exn e =>
          rw [hc] at hs
          simpa [runTxs, hc, txShape] using hs
      | diverge => simp [runTxs, hc, txShape]

/-- C4 amended: for every candidate block, chain index and fuel, is_valid
    either returns a result pair whose reason is drawn from the closed
    taxonomy (with True only for "All checks passed"), or propagates one of
    the exceptions ValueError, IndexError or AttributeError, or fails to
    terminate; malformed input references in particular surface as
    exceptions, not as result pairs. -/
theorem c4_result_taxonomy (H : String → String) (ch : Chain) (fuel : Nat) (blk : Block) :
    resultInTaxonomy (Block.is_valid H ch fuel blk) := by
  unfold Block.is_valid
  split
  · simp [resultInTaxonomy, rejectionReasons]
  · split
    · simp [resultInTaxonomy, rejectionReasons]
    · split
      · simp [resultInTaxonomy, rejectionReasons]
      · split
        · split
          · simp [resultInTaxonomy, rejectionReasons]
          · simp [resultInTaxonomy]
        · split
          · simp [resultInTaxonomy, rejectionReasons]
          · split
            · simp [resultInTaxonomy, rejectionReasons]
            · split
              · simp [resultInTaxonomy, rejectionReasons]
              · split
                · simp [resultInTaxonomy, rejectionReasons]
                · split
                  · simp [resultInTaxonomy, rejectionReasons]
                  · have hs := runTxs_shape ch blk fuel blk.transactions ⟨[], [], []⟩
                    cases hr : runTxs ch blk fuel blk.transactions ⟨[], [], []⟩ with
                    | ok v =>
                        cases v with
                        | inl st1 => simp [finishRun, resultInTaxonomy]
                        | inr r =>
                            rw [hr] at hs
                            obtain ⟨b, s⟩ := r
                            simp only [txShape, List.mem_cons, List.not_mem_nil, or_false] at hs
                            obtain ⟨hb, hmem⟩ := hs
                            subst hb
                            simp only [finishRun, resultInTaxonomy]
                            rcases hmem with h2 | h2 | h2 | h2 | h2 | h2 <;> subst h2 <;>
                              simp [rejectionReasons]
                    | exn e =>
                        rw [hr] at hs
                        simpa [finishRun, resultInTaxonomy, txShape] using hs
                    | diverge => simp [finishRun, resultInTaxonomy]

theorem lastD_mem {α : Type} : ∀ (path : List α) (b0 : α), lastD b0 path ∈ b0 :: path := by
  intro path
  induction path with
  | nil => intro b0; simp [lastD]
  | cons c rest ih =>
      intro b0
      simp only [lastD]
      exact List.mem_cons_of_mem b0 (ih c)

theorem postRefs_inr (tx : Transaction) (OI1 OO1 : List String) (r : Bool × String) :
    postRefs tx OI1 OO1 (.ok (.inr r)) = .ok (.inr r) := rfl

theorem checkInpRef_eq_spent_true (ch : Chain) (blk : Block) (tx : Transaction) (fuel : Nat)
    (ref txh idxStr : String) (ti : Int) (IR : List String) (p : Int × List String)
    (hsp : pySplitColon ref = [txh, idxStr])
    (hres : resolveRef ch blk tx txh idxStr ti IR = .ok (.inl p))
    (hw : walkSpent ch ref fuel (alookup ch.blocks blk.parent_hash) = .ok true) :
    checkInpRef ch blk tx fuel ref ti IR = .ok (.inr (false, "Double-spent input")) := by
  unfold checkInpRef
  rw [hsp]
  dsimp only
  rw [hres]
  dsimp only
  rw [hw]

theorem checkInpRef_eq_dup (ch : Chain) (blk : Block) (tx : Transaction) (fuel : Nat)
    (ref txh idxStr : String) (ti : Int) (IR : List String) (p : Int × List String)
    (hsp : pySplitColon ref = [txh, idxStr])
    (hres : resolveRef ch blk tx txh idxStr ti IR = .ok (.inl p))
    (hw : walkSpent ch ref fuel (alookup ch.blocks blk.parent_hash) = .ok false)
    (hdup : (blk.transactions.map (fun t => t.input_refs.count ref)).sum > 1) :
    checkInpRef ch blk tx fuel ref ti IR = .ok (.inr (false, "Double-spent input")) := by
  unfold checkInpRef
  rw [hsp]
  dsimp only
  rw [hres]
  dsimp only
  rw [hw]
  dsimp only
  rw [if_pos hdup]

theorem checkTx_to_refs (ch : Chain) (blk : Block) (fuel : Nat) (tx : Transaction) (st : VState)
    (hw : walkTxInChain ch tx fuel (alookup ch.blocks blk.parent_hash) = .ok false)
    (hcnt : ¬ blk.transactions.countP (fun t => t.hash == tx.hash) > 1) :
    checkTx ch blk fuel tx st =
      postRefs tx (sendersFold tx st.OI) (receiversFold tx st.OO)
        (runRefs ch blk tx fuel tx.input_refs 0 st.IR) := by
  unfold checkTx
  dsimp only
  rw [hw]
  dsimp only
  rw [if_neg hcnt]

theorem runRefs_reject (ch : Chain) (blk : Block) (tx : Transaction) (fuel : Nat)
    (rpre rpost : List String) (ref : String) (ti0 ti : Int) (IR0 IR : List String)
    (r : Bool × String)
    (h1 : runRefs ch blk tx fuel rpre ti0 IR0 = .ok (.inl (ti, IR)))
    (h2 : checkInpRef ch blk tx fuel ref ti IR = .ok (.inr r)) :
    runRefs ch blk tx fuel (rpre ++ ref :: rpost) ti0 IR0 = .ok (.inr r) := by
  rw [runRefs_append, h1]
  simp [runRefs, h2]

theorem checkInpRef_spent_inv (ch : Chain) (blk : Block) (tx : Transaction) (fuel : Nat)
    (ref : String) (ti : Int) (IR : List String)
    (h : checkInpRef ch blk tx fuel ref ti IR = .ok (.inr (false, "Double-spent input"))) :
    walkSpent ch ref fuel (alookup ch.blocks blk.parent_hash) = .ok true ∨
    (blk.transactions.map (fun t => t.input_refs.count ref)).sum > 1 := by
  unfold checkInpRef at h
  split at h
  · split at h
    · simp at h
    · simp at h
    · rename_i r heq2
      have hr1 := resolveRef_msg _ _ _ _ _ _ _ _ heq2
      subst hr1
      simp at h
    · split at h
      · simp at h
      · simp at h
      · rename_i heq3
        exact Or.inl heq3
      · split at h
        · rename_i hgt
          exact Or.inr hgt
        · split at h
          · simp at h
          · split at h
            · simp at h
            · simp at h
            · split at h
              · simp at h
              · simp at h
  · simp at h

theorem runRefs_spent_inv (ch : Chain) (blk : Block) (tx : Transaction) (fuel : Nat) :
    ∀ (refs : List String) (ti : Int) (IR : List String),
      runRefs ch blk tx fuel refs ti IR = .ok (.inr (false, "Double-spent input")) →
      ∃ ref ∈ refs,
        walkSpent ch ref fuel (alookup ch.blocks blk.parent_hash) = .ok true ∨
        (blk.transactions.map (fun t => t.input_refs.count ref)).sum > 1 := by
  intro refs
  induction refs with
  | nil => intro ti IR h; simp [runRefs] at h
  | cons ref rest ih =>
      intro ti IR h
      unfold runRefs at h
      split at h
      · rename_i p heq
        obtain ⟨r2, hr2, hc⟩ := ih p.1 p.2 h
        exact ⟨r2, by simp [hr2], hc⟩
      · rename_i r heq
        injection h with h2
        injection h2 with h3
        subst h3
        exact ⟨ref, by simp, checkInpRef_spent_inv ch blk tx fuel ref ti IR heq⟩
      · simp at h
      · simp at h

theorem checkTx_spent_inv (ch : Chain) (blk : Block) (fuel : Nat) (tx : Transaction)
    (st : VState)
    (h : checkTx ch blk fuel tx st = .ok (.inr (false, "Double-spent input"))) :
    ∃ ref ∈ tx.input_refs,
      walkSpent ch ref fuel (alookup ch.blocks blk.parent_hash) = .ok true ∨
      (blk.transactions.map (fun t => t.input_refs.count ref)).sum > 1 := by
  unfold checkTx at h
  dsimp only at h
  split at h
  · simp at h
  · simp at h
  · simp at h
  · split at h
    · simp at h
    · cases hr : runRefs ch blk tx fuel tx.input_refs 0 st.IR with
      | ok v =>
          cases v with
          | inl p =>
              rw [hr] at h
              obtain ⟨ti, IR1⟩ := p
              unfold postRefs at h
              dsimp only at h
              split at h
              · simp at h
              · split at h
                · split at h
                  · simp at h
                  · split at h
                    · simp at h
                    · split at h <;> simp at h
                · split at h <;> simp at h
          | inr r =>
              rw [hr, postRefs_inr] at h
              injection h with h2
              injection h2 with h3
              subst h3
              exact runRefs_spent_inv ch blk tx fuel tx.input_refs 0 st.IR hr
      | exn e => rw [hr] at h; simp [postRefs] at h
      | diverge => rw [hr] at h; simp [postRefs] at h

theorem runTxs_spent_inv (ch : Chain) (blk : Block) (fuel : Nat) :
    ∀ (txs : List Transaction) (st : VState),
      runTxs ch blk fuel txs st = .ok (.inr (false, "Double-spent input")) →
      ∃ tx ∈ txs, ∃ ref ∈ tx.input_refs,
        walkSpent ch ref fuel (alookup ch.blocks blk.parent_hash) = .ok true ∨
        (blk.transactions.map (fun t => t.input_refs.count ref)).sum > 1 := by
  intro txs
  induction txs with
  | nil => intro st h; simp [runTxs] at h
  | cons tx rest ih =>
      intro st h
      unfold runTxs at h
      split at h
      · rename_i st1 heq
        obtain ⟨t2, ht2, hc⟩ := ih st1 h
        exact ⟨t2, by simp [ht2], hc⟩
      · rename_i r heq
        injection h with h2
        injection h2 with h3
        subst h3
        exact ⟨tx, by simp, checkTx_spent_inv ch blk fuel tx st heq⟩
      · simp at h
      · simp at h

theorem is_valid_to_runTxs (H : String → String) (ch : Chain) (fuel : Nat) (blk : Block)
    (s : String)
    (h : Block.is_valid H ch fuel blk = .ok (false, s))
    (h1 : s ≠ "Merkle root failed to match") (h2 : s ≠ "Hash failed to match")
    (h3 : s ≠ "Too many transactions") (h4 : s ≠ "Invalid genesis")
    (h5 : s ≠ "Nonexistent parent") (h6 : s ≠ "Invalid height")
    (h7 : s ≠ "Invalid timestamp") (h8 : s ≠ "Invalid seal")
    (h9 : s ≠ "Malformed transaction included") :
    runTxs ch blk fuel blk.transactions ⟨[], [], []⟩ = .ok (.inr (false, s)) := by
  unfold Block.is_valid at h
  split at h
  · injection h with hh; injection hh with hb hs; exact absurd hs.symm h1
  · split at h
    · injection h with hh; injection hh with hb hs; exact absurd hs.symm h2
    · split at h
      · injection h with hh; injection hh with hb hs; exact absurd hs.symm h3
      · split at h
        · split at h
          · injection h with hh; injection hh with hb hs; exact absurd hs.symm h4
          · injection h with hh; injection hh with hb hs; exact absurd hb (by decide)
        · split at h
          · injection h with hh; injection hh with hb hs; exact absurd hs.symm h5
          · split at h
            · injection h with hh; injection hh with hb hs; exact absurd hs.symm h6
            · split at h
              · injection h with hh; injection hh with hb hs; exact absurd hs.symm h7
              · split at h
                · injection h with hh; injection hh with hb hs; exact absurd hs.symm h8
                · split at h
                  · injection h with hh; injection hh with hb hs; exact absurd hs.symm h9
                  · cases hr : runTxs ch blk fuel blk.transactions ⟨[], [], []⟩ with
                    | ok v =>
                        cases v with
                        | inl st1 =>
                            rw [hr] at h
                            simp [finishRun] at h
                        | inr r =>
                            rw [hr] at h
                            simp only [finishRun] at h
                            injection h with hh
                            rw [hh]
                    | exn e => rw [hr] at h; simp [finishRun] at h
                    | diverge => rw [hr] at h; simp [finishRun] at h

theorem walkSpent_none (ch : Chain) (ref : String) :
    ∀ fuel, walkSpent ch ref fuel none = .exn "AttributeError" := by
  intro fuel; cases fuel <;> rfl

theorem walkTxInChain_none (ch : Chain) (tx : Transaction) :
    ∀ fuel, walkTxInChain ch tx fuel none = .ok false := by
  intro fuel; cases fuel <;> rfl

/-- C6: for a non genesis block passing all earlier checks, an input
    reference listed by a non genesis ancestor reached by parent links, or
    appearing more than once among the block's own input references, makes
    is_valid return (False, "Double-spent input"); conversely that result
    only arises from such a reference. -/
theorem c6_double_spend (H : String → String) (ch : Chain) (fuel : Nat) (blk parent : Block) :
    (∀ (pre post : List Transaction) (tx : Transaction) (st : VState)
       (rpre rpost : List String) (ref txh idxStr : String) (ti : Int)
       (IR : List String) (p : Int × List String) (path : List Block),
       preOk H ch blk parent →
       blk.transactions = pre ++ tx :: post →
       runTxs ch blk fuel pre ⟨[], [], []⟩ = .ok (.inl st) →
       walkTxInChain ch tx fuel (alookup ch.blocks blk.parent_hash) = .ok false →
       blk.transactions.countP (fun t => t.hash == tx.hash) ≤ 1 →
       tx.input_refs = rpre ++ ref :: rpost →
       runRefs ch blk tx fuel rpre 0 st.IR = .ok (.inl (ti, IR)) →
       pySplitColon ref = [txh, idxStr] →
       resolveRef ch blk tx txh idxStr ti IR = .ok (.inl p) →
       linkedFrom ch parent path →
       (∀ b ∈ parent :: path, b.is_genesis = false) →
       (parent :: path).any (fun b => b.is_inp_ref_present ref) = true →
       path.length < fuel →
       Block.is_valid H ch fuel blk = .ok (false, "Double-spent input")) ∧
    (∀ (pre post : List Transaction) (tx : Transaction) (st : VState)
       (rpre rpost : List String) (ref txh idxStr : String) (ti : Int)
       (IR : List String) (p : Int × List String),
       preOk H ch blk parent →
       blk.transactions = pre ++ tx :: post →
       runTxs ch blk fuel pre ⟨[], [], []⟩ = .ok (.inl st) →
       walkTxInChain ch tx fuel (alookup ch.blocks blk.parent_hash) = .ok false →
       blk.transactions.countP (fun t => t.hash == tx.hash) ≤ 1 →
       tx.input_refs = rpre ++ ref :: rpost →
       runRefs ch blk tx fuel rpre 0 st.IR = .ok (.inl (ti, IR)) →
       pySplitColon ref = [txh, idxStr] →
       resolveRef ch blk tx txh idxStr ti IR = .ok (.inl p) →
       walkSpent ch ref fuel (alookup ch.blocks blk.parent_hash) = .ok false →
       (blk.transactions.map (fun t => t.input_refs.count ref)).sum > 1 →
       Block.is_valid H ch fuel blk = .ok (false, "Double-spent input")) ∧
    (Block.is_valid H ch fuel blk = .ok (false, "Double-spent input") →
       ∃ tx ∈ blk.transactions, ∃ ref ∈ tx.input_refs,
         (∃ p2 path, alookup ch.blocks blk.parent_hash = some p2 ∧
            linkedFrom ch p2 path ∧ (∀ b ∈ p2 :: path, b.is_genesis = false) ∧
            (p2 :: path).any (fun b => b.is_inp_ref_present ref) = true) ∨
         (blk.transactions.map (fun t => t.input_refs.count ref)).sum > 1) := by
  refine ⟨?_, ?_, ?_⟩
  · intro pre post tx st rpre rpost ref txh idxStr ti IR p path hpre hsplit hrun hwalk hcnt
      hrefs hrr hsp hres hlink hng hany hfuel
    have h5 := hpre.2.2.2.2.1
    have hw : walkSpent ch ref fuel (alookup ch.blocks blk.parent_hash) = .ok true := by
      rw [h5]
      exact walkSpent_found ch ref path parent fuel hlink hng hany hfuel
    have hcir := checkInpRef_eq_spent_true ch blk tx fuel ref txh idxStr ti IR p hsp hres hw
    have hrr2 : runRefs ch blk tx fuel tx.input_refs 0 st.IR =
        .ok (.inr (false, "Double-spent input")) := by
      rw [hrefs]
      exact runRefs_reject ch blk tx fuel rpre rpost ref 0 ti st.IR IR _ hrr hcir
    have hct : checkTx ch blk fuel tx st = .ok (.inr (false, "Double-spent input")) := by
      rw [checkTx_to_refs ch blk fuel tx st hwalk (by omega), hrr2, postRefs_inr]
    exact is_valid_of_tx_reject H ch fuel blk parent pre post tx st _ hpre hsplit hrun hct
  · intro pre post tx st rpre rpost ref txh idxStr ti IR p hpre hsplit hrun hwalk hcnt
      hrefs hrr hsp hres hwsp hdup
    have hcir := checkInpRef_eq_dup ch blk tx fuel ref txh idxStr ti IR p hsp hres hwsp hdup
    have hrr2 : runRefs ch blk tx fuel tx.input_refs 0 st.IR =
        .ok (.inr (false, "Double-spent input")) := by
      rw [hrefs]
      exact runRefs_reject ch blk tx fuel rpre rpost ref 0 ti st.IR IR _ hrr hcir
    have hct : checkTx ch blk fuel tx st = .ok (.inr (false, "Double-spent input")) := by
      rw [checkTx_to_refs ch blk fuel tx st hwalk (by omega), hrr2, postRefs_inr]
    exact is_valid_of_tx_reject H ch fuel blk parent pre post tx st _ hpre hsplit hrun hct
  · intro hv
    have hrt := is_valid_to_runTxs H ch fuel blk _ hv (by decide) (by decide) (by decide)
      (by decide) (by decide) (by decide) (by decide) (by decide) (by decide)
    obtain ⟨tx, htx, ref, href, hcase⟩ :=
      runTxs_spent_inv ch blk fuel blk.transactions ⟨[], [], []⟩ hrt
    refine ⟨tx, htx, ref, href, ?_⟩
    rcases hcase with hw | hdup
    · cases hpar : alookup ch.blocks blk.parent_hash with
      | none => rw [hpar, walkSpent_none] at hw; simp at hw
      | some p2 =>
          rw [hpar] at hw
          obtain ⟨path, hl, hng, hlast⟩ := walkSpent_true_path ch ref fuel p2 hw
          refine Or.inl ⟨p2, path, rfl, hl, hng, ?_⟩
          simp only [List.any_eq_true]
          exact ⟨lastD p2 path, lastD_mem path p2, hlast⟩
    · exact Or.inr hdup

/-- Witness for C6: on top of the chain g0 ← b1, where b1 already spends
    "t0h:0", the candidate block blkC6 spending "t0h:0" again is rejected
    with "Double-spent input". -/
theorem c6_witness :
    Block.is_valid H0 chain6 10 blkC6 = .ok (false, "Double-spent input") :=
  (c6_double_spend H0 chain6 10 blkC6 b1).1 [] [] txD ⟨[], [], []⟩ [] [] "t0h:0" "t0h" "0"
    0 [] (5, ["B"]) [] (by unfold preOk; decide) rfl rfl (by decide) (by decide) rfl rfl
    (by decide) (by decide) trivial (by decide) (by decide) (by decide)

theorem checkTx_incl_true (ch : Chain) (blk : Block) (fuel : Nat) (tx : Transaction)
    (st : VState)
    (hw : walkTxInChain ch tx fuel (alookup ch.blocks blk.parent_hash) = .ok true) :
    checkTx ch blk fuel tx st = .ok (.inr (false, "Double transaction inclusion")) := by
  unfold checkTx
  dsimp only
  rw [hw]

theorem checkTx_incl_dup (ch : Chain) (blk : Block) (fuel : Nat) (tx : Transaction)
    (st : VState)
    (hw : walkTxInChain ch tx fuel (alookup ch.blocks blk.parent_hash) = .ok false)
    (hdup : blk.transactions.countP (fun t => t.hash == tx.hash) > 1) :
    checkTx ch blk fuel tx st = .ok (.inr (false, "Double transaction inclusion")) := by
  unfold checkTx
  dsimp only
  rw [hw]
  dsimp only
  rw [if_pos hdup]

theorem postRefs_msg_inv (tx : Transaction) (OI1 OO1 : List String)
    (res : PyResult ((Int × List String) ⊕ (Bool × String))) (b : Bool) (s : String)
    (h : postRefs tx OI1 OO1 res = .ok (.inr (b, s))) :
    res = .ok (.inr (b, s)) ∨
    (b = false ∧ (s = "User inconsistencies" ∨ s = "Creating money")) := by
  cases res with
  | ok v =>
      cases v with
      | inl p =>
          obtain ⟨ti, IR1⟩ := p
          unfold postRefs at h
          dsimp only at h
          split at h
          · injection h with hh; injection hh with hh2; injection hh2 with hb hs
            exact Or.inr ⟨hb.symm, Or.inl hs.symm⟩
          · split at h
            · split at h
              · injection h with hh; injection hh with hh2; injection hh2 with hb hs
                exact Or.inr ⟨hb.symm, Or.inl hs.symm⟩
              · split at h
                · injection h with hh; injection hh with hh2; injection hh2 with hb hs
                  exact Or.inr ⟨hb.symm, Or.inl hs.symm⟩
                · split at h
                  · injection h with hh; injection hh with hh2; injection hh2 with hb hs
                    exact Or.inr ⟨hb.symm, Or.inr hs.symm⟩
                  · simp at h
            · split at h
              · injection h with hh; injection hh with hh2; injection hh2 with hb hs
                exact Or.inr ⟨hb.symm, Or.inr hs.symm⟩
              · simp at h
      | inr r =>
          rw [postRefs_inr] at h
          injection h with hh
          injection hh with hh2
          exact Or.inl (by rw [hh2])
  | exn e => simp [postRefs] at h
  | diverge => simp [postRefs] at h

theorem checkTx_incl_inv (ch : Chain) (blk : Block) (fuel : Nat) (tx : Transaction)
    (st : VState)
    (h : checkTx ch blk fuel tx st = .ok (.inr (false, "Double transaction inclusion"))) :
    walkTxInChain ch tx fuel (alookup ch.blocks blk.parent_hash) = .ok true ∨
    blk.transactions.countP (fun t => t.hash == tx.hash) > 1 := by
  unfold checkTx at h
  dsimp only at h
  split at h
  · simp at h
  · simp at h
  · rename_i heq
    exact Or.inl heq
  · split at h
    · rename_i hgt
      exact Or.inr hgt
    · exfalso
      rcases postRefs_msg_inv tx _ _ _ _ _ h with h2 | h2
      · have hs := runRefs_shape ch blk tx fuel tx.input_refs 0 st.IR
        rw [h2] at hs
        simp [refShape] at hs
      · simp at h2

theorem runTxs_incl_inv (ch : Chain) (blk : Block) (fuel : Nat) :
    ∀ (txs : List Transaction) (st : VState),
      runTxs ch blk fuel txs st = .ok (.inr (false, "Double transaction inclusion")) →
      ∃ tx ∈ txs,
        walkTxInChain ch tx fuel (alookup ch.blocks blk.parent_hash) = .ok true ∨
        blk.transactions.countP (fun t => t.hash == tx.hash) > 1 := by
  intro txs
  induction txs with
  | nil => intro st h; simp [runTxs] at h
  | cons tx rest ih =>
      intro st h
      unfold runTxs at h
      split at h
      · rename_i st1 heq
        obtain ⟨t2, ht2, hc⟩ := ih st1 h
        exact ⟨t2, by simp [ht2], hc⟩
      · rename_i r heq
        injection h with h2
        injection h2 with h3
        subst h3
        exact ⟨tx, by simp, checkTx_incl_inv ch blk fuel tx st heq⟩
      · simp at h
      · simp at h

/-- C7: for a non genesis block passing all earlier checks, a transaction
    whose hash appears in an ancestor block reached by parent links, or
    shared by more than one transaction of the block, makes is_valid return
    (False, "Double transaction inclusion"); conversely that result only
    arises from such a transaction. -/
theorem c7_double_inclusion (H : String → String) (ch : Chain) (fuel : Nat)
    (blk parent : Block) :
    (∀ (pre post : List Transaction) (tx : Transaction) (st : VState) (path : List Block),
       preOk H ch blk parent →
       blk.transactions = pre ++ tx :: post →
       runTxs ch blk fuel pre ⟨[], [], []⟩ = .ok (.inl st) →
       linkedFrom ch parent path →
       (parent :: path).any (fun b => b.is_tx_present tx) = true →
       path.length < fuel →
       Block.is_valid H ch fuel blk = .ok (false, "Double transaction inclusion")) ∧
    (∀ (pre post : List Transaction) (tx : Transaction) (st : VState),
       preOk H ch blk parent →
       blk.transactions = pre ++ tx :: post →
       runTxs ch blk fuel pre ⟨[], [], []⟩ = .ok (.inl st) →
       walkTxInChain ch tx fuel (alookup ch.blocks blk.parent_hash) = .ok false →
       blk.transactions.countP (fun t => t.hash == tx.hash) > 1 →
       Block.is_valid H ch fuel blk = .ok (false, "Double transaction inclusion")) ∧
    (Block.is_valid H ch fuel blk = .ok (false, "Double transaction inclusion") →
       ∃ tx ∈ blk.transactions,
         (∃ p2 path, alookup ch.blocks blk.parent_hash = some p2 ∧
            linkedFrom ch p2 path ∧
            (p2 :: path).any (fun b => b.is_tx_present tx) = true) ∨
         blk.transactions.countP (fun t => t.hash == tx.hash) > 1) := by
  refine ⟨?_, ?_, ?_⟩
  · intro pre post tx st path hpre hsplit hrun hlink hany hfuel
    have h5 := hpre.2.2.2.2.1
    have hw : walkTxInChain ch tx fuel (alookup ch.blocks blk.parent_hash) = .ok true := by
      rw [h5]
      exact walkTxInChain_found ch tx path parent fuel hlink hany hfuel
    exact is_valid_of_tx_reject H ch fuel blk parent pre post tx st _ hpre hsplit hrun
      (checkTx_incl_true ch blk fuel tx st hw)
  · intro pre post tx st hpre hsplit hrun hw hdup
    exact is_valid_of_tx_reject H ch fuel blk parent pre post tx st _ hpre hsplit hrun
      (checkTx_incl_dup ch blk fuel tx st hw hdup)
  · intro hv
    have hrt := is_valid_to_runTxs H ch fuel blk _ hv (by decide) (by decide) (by decide)
      (by decide) (by decide) (by decide) (by decide) (by decide) (by decide)
    obtain ⟨tx, htx, hcase⟩ := runTxs_incl_inv ch blk fuel blk.transactions ⟨[], [], []⟩ hrt
    refine ⟨tx, htx, ?_⟩
    rcases hcase with hw | hdup
    · cases hpar : alookup ch.blocks blk.parent_hash with
      | none => rw [hpar, walkTxInChain_none] at hw; simp at hw
      | some p2 =>
          rw [hpar] at hw
          obtain ⟨path, hl, hlast⟩ := walkTxInChain_true_path ch tx fuel p2 hw
          refine Or.inl ⟨p2, path, rfl, hl, ?_⟩
          simp only [List.any_eq_true]
          exact ⟨lastD p2 path, lastD_mem path p2, hlast⟩
    · exact Or.inr hdup

/-- Witness for C7: the candidate block blkC7 re-includes t0, which the
    genesis block already contains, and is rejected with
    "Double transaction inclusion". -/
theorem c7_witness :
    Block.is_valid H0 chain0 10 blkC7 = .ok (false, "Double transaction inclusion") :=
  (c7_double_inclusion H0 chain0 10 blkC7 g0).1 [] [] t0 ⟨[], [], []⟩ []
    (by unfold preOk; decide) rfl rfl trivial (by decide) (by decide)

theorem checkInpRef_inl_pass (ch : Chain) (blk : Block) (tx : Transaction) (fuel : Nat)
    (ref : String) (ti : Int) (IR : List String) (p : Int × List String)
    (h : checkInpRef ch blk tx fuel ref ti IR = .ok (.inl p)) :
    ∃ txh idxStr, pySplitColon ref = [txh, idxStr] ∧
      resolveRef ch blk tx txh idxStr ti IR = .ok (.inl p) := by
  unfold checkInpRef at h
  split at h
  · rename_i txh idxStr heq0
    refine ⟨txh, idxStr, heq0, ?_⟩
    split at h
    · simp at h
    · simp at h
    · simp at h
    · rename_i p2 heq2
      split at h
      · simp at h
      · simp at h
      · simp at h
      · split at h
        · simp at h
        · split at h
          · injection h with hh
            injection hh with hh2
            rw [← hh2]
            exact heq2
          · split at h
            · simp at h
            · simp at h
            · split at h
              · injection h with hh
                injection hh with hh2
                rw [← hh2]
                exact heq2
              · simp at h
  · simp at h

theorem refValue_of_resolve (ch : Chain) (blk : Block) (tx : Transaction)
    (ref txh idxStr : String) (ti : Int) (IR : List String) (p : Int × List String)
    (hsp : pySplitColon ref = [txh, idxStr])
    (h : resolveRef ch blk tx txh idxStr ti IR = .ok (.inl p)) :
    p.1 = ti + refGlobalValue ch ref := by
  unfold refGlobalValue
  rw [hsp]
  dsimp only
  unfold resolveRef at h
  split at h
  · split at h
    · injection h with hh
      injection hh with hh2
      rw [← hh2]
      simp
    · simp at h
  · split at h
    · simp at h
    · split at h
      · simp at h
      · split at h
        · simp at h
        · simp at h
        · rename_i v heqv
          split at h
          · simp at h
          · simp at h
          · injection h with hh
            injection hh with hh2
            rw [← hh2, heqv]

theorem checkInpRef_inl_total (ch : Chain) (blk : Block) (tx : Transaction) (fuel : Nat)
    (ref : String) (ti : Int) (IR : List String) (p : Int × List String)
    (h : checkInpRef ch blk tx fuel ref ti IR = .ok (.inl p)) :
    p.1 = ti + refGlobalValue ch ref := by
  obtain ⟨txh, idxStr, hsp, hres⟩ := checkInpRef_inl_pass ch blk tx fuel ref ti IR p h
  exact refValue_of_resolve ch blk tx ref txh idxStr ti IR p hsp hres

theorem runRefs_inl_total (ch : Chain) (blk : Block) (tx : Transaction) (fuel : Nat) :
    ∀ (refs : List String) (ti : Int) (IR : List String) (ti1 : Int) (IR1 : List String),
      runRefs ch blk tx fuel refs ti IR = .ok (.inl (ti1, IR1)) →
      ti1 = ti + (refs.map (refGlobalValue ch)).sum := by
  intro refs
  induction refs with
  | nil =>
      intro ti IR ti1 IR1 h
      simp [runRefs] at h
      simp [h.1.symm]
  | cons ref rest ih =>
      intro ti IR ti1 IR1 h
      unfold runRefs at h
      split at h
      · rename_i p heq
        have h1 := checkInpRef_inl_total ch blk tx fuel ref ti IR p heq
        have h2 := ih p.1 p.2 ti1 IR1 h
        simp only [List.map_cons, List.sum_cons]
        omega
      · simp at h
      · simp at h
      · simp at h

theorem postRefs_user_fail (tx : Transaction) (OI1 OO1 : List String) (ti : Int)
    (IR1 : List String)
    (h2 : (sendersFold tx []).length > 1) :
    postRefs tx OI1 OO1 (.ok (.inl (ti, IR1))) = .ok (.inr (false, "User inconsistencies")) := by
  unfold postRefs
  dsimp only
  rw [if_pos h2]

theorem postRefs_creating (tx : Transaction) (st : VState) (OO1 : List String) (ti : Int)
    (IR1 : List String)
    (hu : userChecksPass tx st IR1)
    (hlt : ti < tx.get_total_output) :
    postRefs tx (sendersFold tx st.OI) OO1 (.ok (.inl (ti, IR1))) =
      .ok (.inr (false, "Creating money")) := by
  obtain ⟨hu1, hu2⟩ := hu
  unfold postRefs
  dsimp only
  rw [if_neg (by omega)]
  by_cases hcond : IR1.length > 0 ∧ (sendersFold tx st.OI).length > 0
  · rw [if_pos hcond]
    rcases hu2 with hu2 | hu2 | hu2
    · omega
    · omega
    · rw [if_neg (by omega), if_neg (by simpa using hu2.2), if_pos hlt]
  · rw [if_neg hcond, if_pos hlt]

theorem postRefs_pass (tx : Transaction) (st : VState) (OO1 : List String) (ti : Int)
    (IR1 : List String)
    (hu : userChecksPass tx st IR1)
    (hge : tx.get_total_output ≤ ti) :
    ∃ st2, postRefs tx (sendersFold tx st.OI) OO1 (.ok (.inl (ti, IR1))) = .ok (.inl st2) := by
  obtain ⟨hu1, hu2⟩ := hu
  unfold postRefs
  dsimp only
  rw [if_neg (by omega)]
  by_cases hcond : IR1.length > 0 ∧ (sendersFold tx st.OI).length > 0
  · rw [if_pos hcond]
    rcases hu2 with hu2 | hu2 | hu2
    · omega
    · omega
    · rw [if_neg (by omega), if_neg (by simpa using hu2.2), if_neg (by omega)]
      exact ⟨_, rfl⟩
  · rw [if_neg hcond, if_neg (by omega)]
    exact ⟨_, rfl⟩

/-- C1 amended: for a non genesis block passing all earlier checks and each
    of its transactions, the total accumulated by the input reference loop is
    exactly the sum of the values of the globally resolvable references
    (locally resolvable ones contribute nothing), and, when the user
    consistency checks pass, is_valid returns (False, "Creating money")
    precisely when that sum is strictly below the transaction's total
    output value. -/
theorem c1_conservation_amended (H : String → String) (ch : Chain) (fuel : Nat)
    (blk parent : Block) :
    ∀ (pre post : List Transaction) (tx : Transaction) (st : VState) (ti : Int)
      (IR1 : List String),
      preOk H ch blk parent →
      blk.transactions = pre ++ tx :: post →
      runTxs ch blk fuel pre ⟨[], [], []⟩ = .ok (.inl st) →
      walkTxInChain ch tx fuel (alookup ch.blocks blk.parent_hash) = .ok false →
      blk.transactions.countP (fun t => t.hash == tx.hash) ≤ 1 →
      runRefs ch blk tx fuel tx.input_refs 0 st.IR = .ok (.inl (ti, IR1)) →
      userChecksPass tx st IR1 →
      (ti = (tx.input_refs.map (refGlobalValue ch)).sum) ∧
      (ti < tx.get_total_output →
         Block.is_valid H ch fuel blk = .ok (false, "Creating money")) ∧
      (tx.get_total_output ≤ ti →
         ∃ st2, checkTx ch blk fuel tx st = .ok (.inl st2)) := by
  intro pre post tx st ti IR1 hpre hsplit hrun hwalk hcnt hrr huser
  refine ⟨?_, ?_, ?_⟩
  · have := runRefs_inl_total ch blk tx fuel tx.input_refs 0 st.IR ti IR1 hrr
    omega
  · intro hlt
    have hct : checkTx ch blk fuel tx st = .ok (.inr (false, "Creating money")) := by
      rw [checkTx_to_refs ch blk fuel tx st hwalk (by omega), hrr]
      exact postRefs_creating tx st _ ti IR1 huser hlt
    exact is_valid_of_tx_reject H ch fuel blk parent pre post tx st _ hpre hsplit hrun hct
  · intro hge
    rw [checkTx_to_refs ch blk fuel tx st hwalk (by omega), hrr]
    exact postRefs_pass tx st _ ti IR1 huser hge

/-- Witness for C1: in blkC1, transaction txS (funded only by the in block
    transaction txL) accumulates a total input of 0 — the sum of its globally
    resolvable reference values — and is rejected with "Creating money". -/
theorem c1_witness :
    Block.is_valid H0 chain0 20 blkC1 = .ok (false, "Creating money") ∧
    (0 : Int) = (txS.input_refs.map (refGlobalValue chain0)).sum := by
  have h := c1_conservation_amended H0 chain0 20 blkC1 g0 [txL] [] txS ⟨[], ["D"], []⟩ 0 []
    (by unfold preOk; decide) rfl (by decide) (by decide) (by decide) (by decide)
    (by unfold userChecksPass; decide)
  exact ⟨h.2.1 (by decide), h.1⟩

theorem dictInsert_mem_self (d : List String) (k : String) : k ∈ dictInsert d k := by
  unfold dictInsert
  split
  · assumption
  · simp

theorem dictInsert_mono (d : List String) (k x : String) (h : x ∈ d) : x ∈ dictInsert d k := by
  unfold dictInsert
  split
  · exact h
  · exact List.mem_append_left _ h

theorem sendersFold_mono (outs : List Output) : ∀ (d : List String) (x : String),
    x ∈ d → x ∈ outs.foldl (fun d o => dictInsert d o.sender) d := by
  induction outs with
  | nil => intro d x h; simpa using h
  | cons a rest ih =>
      intro d x h
      simp only [List.foldl_cons]
      exact ih _ x (dictInsert_mono d a.sender x h)

theorem sender_mem_fold (outs : List Output) : ∀ (d : List String) (o : Output),
    o ∈ outs → o.sender ∈ outs.foldl (fun d o => dictInsert d o.sender) d := by
  induction outs with
  | nil => intro d o h; simp at h
  | cons a rest ih =>
      intro d o h
      simp only [List.foldl_cons]
      rcases List.mem_cons.mp h with rfl | h2
      · exact sendersFold_mono rest _ _ (dictInsert_mem_self d o.sender)
      · exact ih _ o h2

theorem two_mem_length {α : Type} (l : List α) (a b : α) (ha : a ∈ l) (hb : b ∈ l)
    (hab : a ≠ b) : 1 < l.length := by
  cases l with
  | nil => simp at ha
  | cons x xs =>
      simp only [List.length_cons]
      rcases List.mem_cons.mp ha with rfl | ha2
      · rcases List.mem_cons.mp hb with h | hb2
        · exact absurd h.symm hab
        · have := List.length_pos.mpr (List.ne_nil_of_mem hb2)
          omega
      · have := List.length_pos.mpr (List.ne_nil_of_mem ha2)
        omega

theorem sendersFold_two (tx : Transaction) (o1 o2 : Output) (h1 : o1 ∈ tx.outputs)
    (h2 : o2 ∈ tx.outputs) (hne : o1.sender ≠ o2.sender) :
    1 < (sendersFold tx []).length :=
  two_mem_length _ _ _ (sender_mem_fold tx.outputs [] o1 h1)
    (sender_mem_fold tx.outputs [] o2 h2) hne

theorem dictInsert_one (l : List String) (u : String) (h : l = [] ∨ l = [u]) :
    dictInsert l u = [u] := by
  rcases h with rfl | rfl
  · simp [dictInsert]
  · simp [dictInsert]

theorem senders_foldl_one (outs : List Output) (u : String) :
    ∀ (l : List String), (∀ o ∈ outs, o.sender = u) → (l = [] ∨ l = [u]) →
      (outs.foldl (fun d o => dictInsert d o.sender) l = [] ∨
       outs.foldl (fun d o => dictInsert d o.sender) l = [u]) := by
  induction outs with
  | nil => intro l _ h; simpa using h
  | cons a rest ih =>
      intro l hs h
      simp only [List.foldl_cons]
      have ha : a.sender = u := hs a (by simp)
      rw [ha, dictInsert_one l u h]
      exact ih [u] (fun o ho => hs o (by simp [ho])) (Or.inr rfl)

theorem sendersFold_one (tx : Transaction) (u : String) (l : List String)
    (hs : ∀ o ∈ tx.outputs, o.sender = u) (h : l = [] ∨ l = [u]) :
    sendersFold tx l = [] ∨ sendersFold tx l = [u] :=
  senders_foldl_one tx.outputs u l hs h

theorem getD_mem {α : Type} : ∀ (l : List α) (n : Nat) (d : α), n < l.length →
    l.getD n d ∈ l := by
  intro l
  induction l with
  | nil => intro n d h; simp at h
  | cons a rest ih =>
      intro n d h
      cases n with
      | zero => simp
      | succ m =>
          simp only [List.getD_cons_succ]
          refine List.mem_cons_of_mem a (ih m d ?_)
          simp only [List.length_cons] at h
          omega

theorem pyListGet_mem (l : List Output) (i : Int) (o : Output)
    (h : pyListGet l i = .ok o) : o ∈ l := by
  simp only [pyListGet] at h
  split at h
  · split at h
    · injection h with hh
      rw [← hh]
      apply getD_mem
      omega
    · simp at h
  · split at h
    · injection h with hh
      rw [← hh]
      apply getD_mem
      omega
    · simp at h

theorem get_receiver_at_mem (tx : Transaction) (i : Int) (r : String)
    (h : tx.get_receiver_at i = .ok r) : ∃ o ∈ tx.outputs, o.receiver = r := by
  unfold Transaction.get_receiver_at at h
  split at h
  · rename_i o heq
    injection h with hh
    exact ⟨o, pyListGet_mem _ _ _ heq, hh⟩
  · simp at h
  · simp at h

theorem alookup_mem {α : Type} : ∀ (l : List (String × α)) (k : String) (v : α),
    alookup l k = some v → (k, v) ∈ l := by
  intro l
  induction l with
  | nil => intro k v h; simp [alookup] at h
  | cons p rest ih =>
      intro k v h
      obtain ⟨k2, v2⟩ := p
      unfold alookup at h
      split at h
      · rename_i heq
        injection h with hh
        subst heq
        subst hh
        simp
      · exact List.mem_cons_of_mem _ (ih k v h)

theorem checkInpRef_IR_one (ch : Chain) (blk : Block) (tx : Transaction) (fuel : Nat)
    (ref : String) (ti : Int) (IR : List String) (p : Int × List String) (u : String)
    (hrec : ∀ r, recordedReceiver ch ref r → r = u)
    (hIR : IR = [] ∨ IR = [u])
    (h : checkInpRef ch blk tx fuel ref ti IR = .ok (.inl p)) :
    p.2 = [] ∨ p.2 = [u] := by
  obtain ⟨txh, idxStr, hsp, hres⟩ := checkInpRef_inl_pass ch blk tx fuel ref ti IR p h
  unfold resolveRef at hres
  split at hres
  · split at hres
    · injection hres with hh
      injection hh with hh2
      rw [← hh2]
      exact hIR
    · simp at hres
  · rename_i t heq
    split at hres
    · simp at hres
    · rename_i idx heqi
      split at hres
      · simp at hres
      · split at hres
        · simp at hres
        · simp at hres
        · split at hres
          · simp at hres
          · simp at hres
          · rename_i r heqr
            injection hres with hh
            injection hh with hh2
            have hru : r = u := hrec r ⟨txh, idxStr, t, idx, hsp, heq, heqi, heqr⟩
            right
            rw [← hh2]
            show dictInsert IR r = [u]
            rw [hru]
            exact dictInsert_one IR u hIR

theorem runRefs_IR_one (ch : Chain) (blk : Block) (tx : Transaction) (fuel : Nat)
    (u : String) :
    ∀ (refs : List String) (ti : Int) (IR : List String) (ti1 : Int) (IR1 : List String),
      (∀ ref ∈ refs, ∀ r, recordedReceiver ch ref r → r = u) →
      (IR = [] ∨ IR = [u]) →
      runRefs ch blk tx fuel refs ti IR = .ok (.inl (ti1, IR1)) →
      IR1 = [] ∨ IR1 = [u] := by
  intro refs
  induction refs with
  | nil =>
      intro ti IR ti1 IR1 _ hIR h
      simp [runRefs] at h
      rw [← h.2]
      exact hIR
  | cons ref rest ih =>
      intro ti IR ti1 IR1 hrec hIR h
      unfold runRefs at h
      split at h
      · rename_i p heq
        exact ih p.1 p.2 ti1 IR1 (fun r2 hr2 => hrec r2 (List.mem_cons_of_mem ref hr2))
          (checkInpRef_IR_one ch blk tx fuel ref ti IR p u
            (hrec ref (List.mem_cons_self ref rest)) hIR heq) h
      · simp at h
      · simp at h
      · simp at h

theorem checkTx_user_ok (ch : Chain) (blk : Block) (fuel : Nat) (tx : Transaction)
    (st : VState) (u : String)
    (hsend : ∀ o ∈ tx.outputs, o.sender = u)
    (hrec : ∀ ref ∈ tx.input_refs, ∀ r, recordedReceiver ch ref r → r = u)
    (hOI : st.OI = [] ∨ st.OI = [u])
    (hIR : st.IR = [] ∨ st.IR = [u]) :
    checkTx ch blk fuel tx st ≠ .ok (.inr (false, "User inconsistencies")) ∧
    ∀ st2, checkTx ch blk fuel tx st = .ok (.inl st2) →
      (st2.OI = [] ∨ st2.OI = [u]) ∧ (st2.IR = [] ∨ st2.IR = [u]) := by
  unfold checkTx
  dsimp only
  rcases walkTxInChain_shape ch tx fuel (alookup ch.blocks blk.parent_hash) with ⟨b, hw⟩ | hw <;>
    rw [hw]
  · cases b with
    | true => exact ⟨by simp, by intro st2 h2; simp at h2⟩
    | false =>
        dsimp only
        split
        · exact ⟨by simp, by intro st2 h2; simp at h2⟩
        · cases hr : runRefs ch blk tx fuel tx.input_refs 0 st.IR with
          | ok v =>
              cases v with
              | inl q =>
                  obtain ⟨ti, IR1⟩ := q
                  have hIR1 := runRefs_IR_one ch blk tx fuel u tx.input_refs 0 st.IR
                    ti IR1 hrec hIR hr
                  have hOI1 := sendersFold_one tx u st.OI hsend hOI
                  have hInp := sendersFold_one tx u [] hsend (Or.inl rfl)
                  have hInpLen : ¬ (sendersFold tx []).length > 1 := by
                    rcases hInp with h2 | h2 <;> rw [h2] <;> simp
                  unfold postRefs
                  dsimp only
                  rw [if_neg hInpLen]
                  by_cases hcond : IR1.length > 0 ∧ (sendersFold tx st.OI).length > 0
                  · rw [if_pos hcond]
                    have hIRu : IR1 = [u] := by
                      rcases hIR1 with h2 | h2
                      · rw [h2] at hcond; simp at hcond
                      · exact h2
                    have hOIu : sendersFold tx st.OI = [u] := by
                      rcases hOI1 with h2 | h2
                      · rw [h2] at hcond; simp at hcond
                      · exact h2
                    rw [if_neg (by rw [hIRu]; simp)]
                    rw [if_neg (by rw [hIRu, hOIu]; simp [popLast])]
                    split
                    · exact ⟨by simp, by intro st2 h2; simp at h2⟩
                    · constructor
                      · simp
                      · intro st2 hst2
                        injection hst2 with hh
                        injection hh with hh2
                        rw [← hh2]
                        constructor
                        · left
                          show (popLast (sendersFold tx st.OI)).2 = []
                          rw [hOIu]
                          rfl
                        · left
                          show (popLast IR1).2 = []
                          rw [hIRu]
                          rfl
                  · rw [if_neg hcond]
                    split
                    · exact ⟨by simp, by intro st2 h2; simp at h2⟩
                    · constructor
                      · simp
                      · intro st2 hst2
                        injection hst2 with hh
                        injection hh with hh2
                        rw [← hh2]
                        exact ⟨hOI1, hIR1⟩
              | inr r =>
                  rw [postRefs_inr]
                  have hs := runRefs_shape ch blk tx fuel tx.input_refs 0 st.IR
                  rw [hr] at hs
                  obtain ⟨b2, s2⟩ := r
                  simp only [refShape, List.mem_cons, List.not_mem_nil, or_false] at hs
                  constructor
                  · intro hcontra
                    injection hcontra with hh
                    injection hh with hh2
                    injection hh2 with hb hsx
                    rcases hs.2 with h2 | h2 | h2 <;> rw [hsx] at h2 <;>
                      exact absurd h2 (by decide)
                  · intro st2 hst2
                    simp at hst2
          | exn e =>
              exact ⟨by simp [postRefs], by intro st2 h2; simp [postRefs] at h2⟩
          | diverge =>
              exact ⟨by simp [postRefs], by intro st2 h2; simp [postRefs] at h2⟩
  · exact ⟨by simp, by intro st2 h2; simp at h2⟩

theorem runTxs_user_ok (ch : Chain) (blk : Block) (fuel : Nat) (u : String) :
    ∀ (txs : List Transaction) (st : VState),
      (∀ tx ∈ txs, ∀ o ∈ tx.outputs, o.sender = u) →
      (∀ tx ∈ txs, ∀ ref ∈ tx.input_refs, ∀ r, recordedReceiver ch ref r → r = u) →
      (st.OI = [] ∨ st.OI = [u]) → (st.IR = [] ∨ st.IR = [u]) →
      runTxs ch blk fuel txs st ≠ .ok (.inr (false, "User inconsistencies")) := by
  intro txs
  induction txs with
  | nil => intro st _ _ _ _ h; simp [runTxs] at h
  | cons tx rest ih =>
      intro st hsend hrec hOI hIR h
      have hc := checkTx_user_ok ch blk fuel tx st u (hsend tx (by simp))
        (hrec tx (by simp)) hOI hIR
      unfold runTxs at h
      split at h
      · rename_i st1 heq
        have hinv := hc.2 st1 heq
        exact ih st1 (fun t ht => hsend t (by simp [ht])) (fun t ht => hrec t (by simp [ht]))
          hinv.1 hinv.2 h
      · rename_i r heq
        injection h with hh
        injection hh with hh2
        subst hh2
        exact hc.1 heq
      · simp at h
      · simp at h

/-- C3 amended: for a non genesis block passing all earlier checks, a
    transaction whose outputs carry two distinct senders is rejected with
    "User inconsistencies"; and a block in which every output sender of
    every transaction and every receiver recorded from its referenced
    outputs is one single user is never rejected with
    "User inconsistencies" (the popitem based cross check only compares the
    most recently recorded entries, so it does not enforce the claim's full
    sender/receiver agreement). -/
theorem c3_user_consistency_amended (H : String → String) (ch : Chain) (fuel : Nat)
    (blk parent : Block) :
    (∀ (pre post : List Transaction) (tx : Transaction) (st : VState) (ti : Int)
       (IR1 : List String) (o1 o2 : Output),
       preOk H ch blk parent →
       blk.transactions = pre ++ tx :: post →
       runTxs ch blk fuel pre ⟨[], [], []⟩ = .ok (.inl st) →
       walkTxInChain ch tx fuel (alookup ch.blocks blk.parent_hash) = .ok false →
       blk.transactions.countP (fun t => t.hash == tx.hash) ≤ 1 →
       runRefs ch blk tx fuel tx.input_refs 0 st.IR = .ok (.inl (ti, IR1)) →
       o1 ∈ tx.outputs → o2 ∈ tx.outputs → o1.sender ≠ o2.sender →
       Block.is_valid H ch fuel blk = .ok (false, "User inconsistencies")) ∧
    (∀ u : String,
       (∀ tx ∈ blk.transactions, ∀ o ∈ tx.outputs, o.sender = u) →
       (∀ tx ∈ blk.transactions, ∀ ref ∈ tx.input_refs, ∀ r,
          recordedReceiver ch ref r → r = u) →
       Block.is_valid H ch fuel blk ≠ .ok (false, "User inconsistencies")) := by
  constructor
  · intro pre post tx st ti IR1 o1 o2 hpre hsplit hrun hwalk hcnt hrr ho1 ho2 hne
    have hct : checkTx ch blk fuel tx st = .ok (.inr (false, "User inconsistencies")) := by
      rw [checkTx_to_refs ch blk fuel tx st hwalk (by omega), hrr]
      exact postRefs_user_fail tx _ _ ti IR1 (sendersFold_two tx o1 o2 ho1 ho2 hne)
    exact is_valid_of_tx_reject H ch fuel blk parent pre post tx st _ hpre hsplit hrun hct
  · intro u hsend hrec hv
    have hrt := is_valid_to_runTxs H ch fuel blk _ hv (by decide) (by decide) (by decide)
      (by decide) (by decide) (by decide) (by decide) (by decide) (by decide)
    exact runTxs_user_ok ch blk fuel u blk.transactions ⟨[], [], []⟩ hsend hrec
      (Or.inl rfl) (Or.inl rfl) hrt

/-- Witness for C3: the block blkCW, whose single transaction is sent by two
    distinct users, is rejected with "User inconsistencies". -/
theorem c3_witness :
    Block.is_valid H0 chain0 20 blkCW = .ok (false, "User inconsistencies") :=
  (c3_user_consistency_amended H0 chain0 20 blkCW g0).1 [] [] txW ⟨[], [], []⟩ 0 []
    ⟨"A", "A", 0⟩ ⟨"B", "B", 0⟩ (by unfold preOk; decide) rfl rfl (by decide) (by decide)
    rfl (by decide) (by decide) (by decide)
